import Mathlib

/-!
Verification development for the `wasupdate` self-update tool.

The Rust sources (`src/lib/src/install.rs`, `src/lib/src/rhai.rs`,
`src/lib/src/utilities.rs`, `src/cli/src/main.rs`) are shallowly embedded
below.  Filesystem state is modelled as an association list from absolute
paths (lists of components) to nodes; stateful Rust functions become
state-passing Lean functions returning the final state together with an
`Outcome` (`ok`, `err`, or `panicked`, the last modelling a Rust panic
via `.unwrap()` or out-of-bounds indexing).  External crates
(`reqwest::Url::parse`, `semver::Version::parse`, process spawning) are
abstracted as explicit function parameters; everything that lives in this
repository is translated from the source.
-/

namespace Wasupdate

/-- Boolean prefix test on lists (used for paths and for character lists). -/
def leadsL {α : Type} [DecidableEq α] : List α → List α → Bool
  | [], _ => true
  | _ :: _, [] => false
  | a :: as, b :: bs => if a = b then leadsL as bs else false

/-- A filesystem path, as a list of components from an abstract root. -/
abbrev Path := List String

/-- A filesystem node: a regular file or a directory, with unix mode bits. -/
inductive Node : Type where
  | file (mode : Nat)
  | dir (mode : Nat)
deriving DecidableEq

/-- Result of a fallible operation.  `panicked` models a Rust panic
(`unwrap()` on an `Err`, or an out-of-bounds index). -/
inductive Outcome (α : Type) : Type where
  | ok (a : α)
  | err (msg : String)
  | panicked
deriving DecidableEq

/-- Filesystem state: an association list from paths to nodes. -/
abbrev Fs := List (Path × Node)

/-- First node stored at a path, if any. -/
def Fs.node? : Fs → Path → Option Node
  | [], _ => none
  | e :: rest, p => if e.1 = p then some e.2 else Fs.node? rest p

/-- Models Rust `Path::exists()`. -/
def Fs.existsP (fs : Fs) (p : Path) : Bool :=
  (Fs.node? fs p).isSome

/-- Models Rust `Path::is_dir()`. -/
def Fs.isDir (fs : Fs) (p : Path) : Bool :=
  match Fs.node? fs p with
  | some (.dir _) => true
  | _ => false

/-- Models Rust `Path::is_file()`. -/
def Fs.isFile (fs : Fs) (p : Path) : Bool :=
  match Fs.node? fs p with
  | some (.file _) => true
  | _ => false

/-- Names of the direct children of `p`, in filesystem order
(models the entries yielded by `fs::read_dir`). -/
def childNames (fs : Fs) (p : Path) : List String :=
  fs.filterMap fun e =>
    if leadsL p e.1 && e.1.length == p.length + 1 then (e.1.drop p.length).head? else none

/-- Remove the entry whose path is exactly `p`. -/
def removeExact (fs : Fs) (p : Path) : Fs :=
  fs.filter fun e => !(e.1 == p)

/-- Remove every entry having `p` as a prefix (the subtree rooted at `p`). -/
def removeSubtree (fs : Fs) (p : Path) : Fs :=
  fs.filter fun e => !(leadsL p e.1)

/-- Models `fs::remove_file`: succeeds only on a regular file. -/
def Fs.removeFile (fs : Fs) (p : Path) : Fs × Outcome Unit :=
  match Fs.node? fs p with
  | some (.file _) => (removeExact fs p, .ok ())
  | _ => (fs, .err "remove_file failed")

/-- Models `fs::remove_dir_all`: succeeds only on a directory, removing the
whole subtree. -/
def Fs.removeDirAll (fs : Fs) (p : Path) : Fs × Outcome Unit :=
  if Fs.isDir fs p then (removeSubtree fs p, .ok ()) else (fs, .err "remove_dir_all failed")

/-- Rewrite one entry for a rename: an entry under `src` moves under `dst`. -/
def relocateEntry (src dst : Path) (e : Path × Node) : Path × Node :=
  if leadsL src e.1 then (dst ++ e.1.drop src.length, e.2) else e

/-- Models `fs::rename src dst` (POSIX `rename(2)`): fails if the source is
missing; an existing destination may only be overwritten by a file over a
file, or a directory over an empty directory. -/
def Fs.rename (fs : Fs) (src dst : Path) : Fs × Outcome Unit :=
  match Fs.node? fs src, Fs.node? fs dst with
  | none, _ => (fs, .err "rename: source missing")
  | some _, none => (fs.map (relocateEntry src dst), .ok ())
  | some (.file _), some (.file _) => ((removeExact fs dst).map (relocateEntry src dst), .ok ())
  | some (.file _), some (.dir _) => (fs, .err "rename: destination is a directory")
  | some (.dir _), some (.file _) => (fs, .err "rename: destination is a file")
  | some (.dir _), some (.dir _) =>
    if childNames fs dst = [] then ((removeExact fs dst).map (relocateEntry src dst), .ok ())
    else (fs, .err "rename: destination not empty")

/-- Helper for `mkdirp`: create the missing directories along `rest`,
having already validated the prefix `done`. -/
def mkdirpGo (fs : Fs) (done : Path) : List String → Fs × Outcome Unit
  | [] => (fs, .ok ())
  | c :: rest =>
    match Fs.node? fs (done ++ [c]) with
    | some (.dir _) => mkdirpGo fs (done ++ [c]) rest
    | some (.file _) => (fs, .err "create_dir_all: not a directory")
    | none => mkdirpGo ((done ++ [c], Node.dir 493) :: fs) (done ++ [c]) rest

/-- Models `fs::create_dir_all` (`create_dir_all("")` is `Ok`, matching the
std special case for the empty path). -/
def mkdirp (fs : Fs) (p : Path) : Fs × Outcome Unit :=
  mkdirpGo fs [] p

/-- Models `fs::File::create`: truncates an existing file, fails on a
directory or a missing parent, otherwise creates the file. -/
def createFile (fs : Fs) (p : Path) : Fs × Outcome Unit :=
  match Fs.node? fs p with
  | some (.dir _) => (fs, .err "File::create: is a directory")
  | some (.file _) => (fs, .ok ())
  | none =>
    if p = [] then (fs, .err "File::create: empty path")
    else if p.dropLast = [] then (((p, Node.file 420) :: fs), .ok ())
    else if Fs.isDir fs p.dropLast then (((p, Node.file 420) :: fs), .ok ())
    else (fs, .err "File::create: missing parent")

/-- Models `fs::set_permissions` with `Permissions::from_mode`. -/
def setPerms (fs : Fs) (p : Path) (m : Nat) : Fs × Outcome Unit :=
  match Fs.node? fs p with
  | none => (fs, .err "set_permissions: no such path")
  | some (.file _) =>
    (fs.map (fun e => if e.1 = p then (e.1, Node.file m) else e), .ok ())
  | some (.dir _) =>
    (fs.map (fun e => if e.1 = p then (e.1, Node.dir m) else e), .ok ())

/-! ### String utilities

These model the Rust standard library string/path functions used by the
sources, implemented structurally so that concrete instances evaluate by
`decide`. -/

/-- Split a character list at the last `'.'`, returning the parts before and
after it (`none` when there is no dot). -/
def lastDot : List Char → Option (List Char × List Char)
  | [] => none
  | c :: rest =>
    match lastDot rest with
    | some (p, s) => some (c :: p, s)
    | none => if c = '.' then some ([], rest) else none

/-- Models Rust `Path::extension()` applied to a single file name: the part
after the last dot, or `none` when there is no dot or the only dot is the
leading character. -/
def extOfName (f : String) : Option String :=
  match lastDot f.data with
  | none => none
  | some (pre, suf) => if pre = [] then none else some (String.mk suf)

/-- Models Rust `Path::file_stem()` on a single file name: the portion
before the extension (the whole name when there is no extension). -/
def fileStem (f : String) : String :=
  match lastDot f.data with
  | none => f
  | some (pre, _) => if pre = [] then f else String.mk pre

/-- Boolean suffix test on strings (models Rust `str::ends_with`). -/
def strEndsWith (s suf : String) : Bool :=
  leadsL suf.data.reverse s.data.reverse

/-- Models Rust `str::strip_suffix`. -/
def stripSuffix? (s suf : String) : Option String :=
  if strEndsWith s suf then some (String.mk (s.data.take (s.data.length - suf.data.length)))
  else none

/-- Split a character list on `'/'`, keeping empty segments; `acc` holds the
current segment reversed. -/
def splitOnSlash (acc : List Char) : List Char → List String
  | [] => [String.mk acc.reverse]
  | c :: rest => if c = '/' then String.mk acc.reverse :: splitOnSlash [] rest
                 else splitOnSlash (c :: acc) rest

/-- Models Rust `Path::file_name()` on a path string: the last normal
component (empty and `.` components are skipped; a path ending in `..` or
having no normal component has no file name). -/
def fileName? (s : String) : Option String :=
  let segs := (splitOnSlash [] s.data).filter fun x => !(x == "" || x == ".")
  match segs.getLast? with
  | none => none
  | some l => if l = ".." then none else some l

/-- Resolve a location string against the working directory: absolute paths
(leading `/`) ignore `cwd`; empty and `.` segments are dropped as the
operating system's path resolution would. -/
def resolvePath (cwd : Path) (loc : String) : Path :=
  (if loc.data.head? = some '/' then [] else cwd)
    ++ (splitOnSlash [] loc.data).filter fun x => !(x == "" || x == ".")

/-! ### Archive classification (`install_archive`, install.rs lines 33-40) -/

/-- The four archive kinds distinguished by `install_archive`. -/
inductive ArchiveKind : Type where
  | zip
  | tar
  | tarGz
  | plainFile
deriving DecidableEq

/-- The dispatch of `install_archive` on `path.extension()`:
`zip`, `tar`, `gz`/`tgz`, anything else (including no extension). -/
def archiveKindOf (ext? : Option String) : ArchiveKind :=
  match ext? with
  | some e =>
    if e = "zip" then .zip
    else if e = "tar" then .tar
    else if e = "gz" then .tarGz
    else if e = "tgz" then .tarGz
    else .plainFile
  | none => .plainFile

/-- Extension of the final component of a component-list path. -/
def pathExt (p : Path) : Option String :=
  p.getLast?.bind extOfName

/-- Archive-kind classification of a location string, as `install_archive`
computes it from `PathBuf::extension` (i.e. from the final path segment). -/
def classifyStr (s : String) : ArchiveKind :=
  archiveKindOf ((fileName? s).bind extOfName)

/-! ### Top-level `install` classification (install.rs lines 16-31) -/

/-- The route chosen by `install`: an existing local file, a URL to
download, or an immediate invalid-location error. -/
inductive InstallRoute : Type where
  | localPath
  | remoteUrl
  | invalid (msg : String)
deriving DecidableEq

/-- Models `install(loc)`'s classification: an existing regular file wins,
else a string accepted by the URL parser (`urlOk`, abstracting
`reqwest::Url::parse(loc).is_ok()`), else the invalid-location error. -/
def installRoute (fs : Fs) (cwd : Path) (urlOk : String → Bool) (loc : String) : InstallRoute :=
  if Fs.existsP fs (resolvePath cwd loc) && Fs.isFile fs (resolvePath cwd loc) then .localPath
  else if urlOk loc then .remoteUrl
  else .invalid ("Location at '" ++ loc ++ "' appears to be an invalid URL and not exist locally.")

/-! ### Layout normalizer (`unroll_folder`, install.rs lines 153-173) -/

/-- The occupant-removal step of `unroll_folder`'s loop body: if something
occupies the destination, `remove_file` it, falling back to
`remove_dir_all`. -/
def unrollStepRemove (fs : Fs) (dest : Path) : Fs × Outcome Unit :=
  if Fs.existsP fs dest then
    match Fs.removeFile fs dest with
    | (fs', .ok _) => (fs', .ok ())
    | _ => Fs.removeDirAll fs dest
  else (fs, .ok ())

/-- The per-child body of `unroll_folder`'s loop followed by the final
`remove_dir_all`: for each child name `c` of `p`, remove whatever occupies
`parent/c`, then rename `p/c` to `parent/c`; afterwards remove `p`
recursively. -/
def unrollGo (p : Path) : List String → Fs → Fs × Outcome Unit
  | [], fs => Fs.removeDirAll fs p
  | c :: cs, fs =>
    match unrollStepRemove fs (p.dropLast ++ [c]) with
    | (fs1, .ok _) =>
      (match Fs.rename fs1 (p ++ [c]) (p.dropLast ++ [c]) with
       | (fs2, .ok _) => unrollGo p cs fs2
       | r => r)
    | r => r

/-- Models `unroll_folder(path)`: a no-op success when `path` is not a
directory, otherwise the loop above over the directory's children. -/
def unrollFolder (fs : Fs) (p : Path) : Fs × Outcome Unit :=
  if Fs.isDir fs p then
    if p.isEmpty then (fs, .err "Provided path has no parent directory")
    else unrollGo p (childNames fs p) fs
  else (fs, .ok ())

/-- Effect of one `unroll_folder` loop iteration (child `c`) on a single
filesystem entry: entries under the destination `parent/c` are removed,
entries under `p/c` are relocated below `parent/c`, others are kept. -/
def stepEntry (p : Path) (c : String) (e : Path × Node) : Option (Path × Node) :=
  if leadsL (p.dropLast ++ [c]) e.1 then none
  else some (relocateEntry (p ++ [c]) (p.dropLast ++ [c]) e)

/-- Cumulative effect of `unroll_folder` on a single entry: the loop
iterations for the child list, then the final recursive removal of `p`. -/
def chainEntry (p : Path) : List String → (Path × Node) → Option (Path × Node)
  | [], e => if leadsL p e.1 then none else some e
  | c :: cs, e => (stepEntry p c e).bind (chainEntry p cs)

/-- Direct description of the final filesystem produced by a successful
unroll, following the spec's words: the wrapper `p` and everything below it
is gone except that each child subtree reappears one level up (replacing
any previous occupant of its destination); everything else is untouched. -/
def unrollSpecEntry (p : Path) (cs : List String) (e : Path × Node) : Option (Path × Node) :=
  if e.1 = p then none
  else if leadsL p e.1 then some (p.dropLast ++ e.1.drop p.length, e.2)
  else if cs.any (fun c => leadsL (p.dropLast ++ [c]) e.1) then none
  else some e

/-- Well-formedness of a filesystem snapshot: distinct nonempty paths, and
every proper nonempty prefix of a stored path is itself stored as a
directory. -/
def FsWf (fs : Fs) : Prop :=
  (fs.map Prod.fst).Nodup ∧
  (∀ e ∈ fs, e.1 ≠ []) ∧
  (∀ e ∈ fs, ∀ i ∈ List.range e.1.length, 0 < i → Fs.isDir fs (e.1.take i) = true)

/-! ### Zip installation (`install_from_zip`, install.rs lines 42-110) -/

/-- One entry of a zip archive: its enclosed name (`None` when
`enclosed_name()` rejects the stored path), whether it is a directory
entry, and its stored unix mode bits, if any. -/
structure ZipEntry : Type where
  encl : Option Path
  isDirEntry : Bool
  mode : Option Nat
deriving DecidableEq

/-- Extraction of one zip entry, exactly as the loop body of
`install_from_zip`: paths are resolved against the current working
directory `cwd` (the Rust code writes the entry's relative path as-is), and
every filesystem failure panics because the code unwraps it. -/
def zipExtractEntry (cwd : Path) (fs : Fs) (e : ZipEntry) : Fs × Outcome Unit :=
  match e.encl with
  | none => (fs, .ok ())
  | some rel =>
    let out := cwd ++ rel
    let afterWrite : Fs × Outcome Unit :=
      if e.isDirEntry then
        match mkdirp fs out with
        | (fs1, .ok _) => (fs1, .ok ())
        | (fs1, _) => (fs1, .panicked)
      else
        let par := rel.dropLast
        let ensured : Fs × Outcome Unit :=
          if par = [] then (fs, .ok ())
          else if Fs.existsP fs (cwd ++ par) then (fs, .ok ())
          else
            match mkdirp fs (cwd ++ par) with
            | (fs1, .ok _) => (fs1, .ok ())
            | (fs1, _) => (fs1, .panicked)
        match ensured with
        | (fs1, .ok _) =>
          (match createFile fs1 out with
           | (fs2, .ok _) => (fs2, .ok ())
           | (fs2, _) => (fs2, .panicked))
        | r => r
    match afterWrite with
    | (fs2, .ok _) =>
      (match e.mode with
       | none => (fs2, .ok ())
       | some m =>
         match setPerms fs2 out m with
         | (fs3, .ok _) => (fs3, .ok ())
         | (fs3, _) => (fs3, .panicked))
    | r => r

/-- The extraction loop of `install_from_zip` over all entries. -/
def zipExtractAll (cwd : Path) : List ZipEntry → Fs → Fs × Outcome Unit
  | [], fs => (fs, .ok ())
  | e :: rest, fs =>
    match zipExtractEntry cwd fs e with
    | (fs1, .ok _) => zipExtractAll cwd rest fs1
    | r => r

/-- Models `install_from_zip(path)`: open the archive, extract every entry
(relative to the working directory), then strip `.zip` from the archive's
file name and unroll that name — again resolved relative to the working
directory, since the code builds a relative `PathBuf`. -/
def installFromZip (cwd : Path) (fs : Fs) (archPath : Path) (entries : List ZipEntry) :
    Fs × Outcome Unit :=
  if Fs.isFile fs archPath then
    match zipExtractAll cwd entries fs with
    | (fs1, .ok _) =>
      (match archPath.getLast? with
       | none => (fs1, .err "Provided path has no valid file name")
       | some nm =>
         match stripSuffix? nm ".zip" with
         | none => (fs1, .err "File name does not end with .zip")
         | some base => unrollFolder fs1 (cwd ++ [base]))
    | r => r
  else (fs, .err "File::open failed")

/-! ### Tar / tar.gz installation (install.rs lines 112-130 and 175-211) -/

/-- One entry of a tar archive (its path inside the archive). -/
structure TarEntry : Type where
  path : Path
  isDirEntry : Bool
deriving DecidableEq

/-- Models `tar::Archive::unpack(dst)`: entries are written below `dst`,
missing parent directories are created, and failures propagate as errors
(the tar code uses `?`, not `unwrap`). -/
def tarUnpackEntries (dst : Path) : List TarEntry → Fs → Fs × Outcome Unit
  | [], fs => (fs, .ok ())
  | e :: rest, fs =>
    if e.isDirEntry then
      match mkdirp fs (dst ++ e.path) with
      | (fs1, .ok _) => tarUnpackEntries dst rest fs1
      | r => r
    else
      match mkdirp fs (dst ++ e.path).dropLast with
      | (fs1, .ok _) =>
        (match createFile fs1 (dst ++ e.path) with
         | (fs2, .ok _) => tarUnpackEntries dst rest fs2
         | r => r)
      | r => r

/-- Models `install_from_tar_gz(path)`: unpack into the executable's
directory, then strip `.tar.gz` from the file name (an error for any other
name, including `.tgz` names) and unroll the resulting relative path, which
resolves against the working directory. -/
def installFromTarGz (cwd exeDir : Path) (fs : Fs) (archPath : Path)
    (entries : List TarEntry) : Fs × Outcome Unit :=
  if Fs.isFile fs archPath then
    match tarUnpackEntries exeDir entries fs with
    | (fs1, .ok _) =>
      (match archPath.getLast? with
       | none => (fs1, .err "Provided path has no file name")
       | some nm =>
         match stripSuffix? nm ".tar.gz" with
         | none => (fs1, .err "File name does not end with .tar.gz")
         | some base => unrollFolder fs1 (cwd ++ [base]))
    | r => r
  else (fs, .err "File::open failed")

/-- Models `install_from_tar(path)`: unpack into the executable's
directory, then unroll `exeDir/file_stem` (an absolute join in this
branch). -/
def installFromTar (exeDir : Path) (fs : Fs) (archPath : Path)
    (entries : List TarEntry) : Fs × Outcome Unit :=
  if Fs.isFile fs archPath then
    match tarUnpackEntries exeDir entries fs with
    | (fs1, .ok _) =>
      (match archPath.getLast? with
       | none => (fs1, .err "Invalid file name")
       | some nm => unrollFolder fs1 (exeDir ++ [fileStem nm]))
    | r => r
  else (fs, .err "File::open failed")

/-- Models `install_simple_file(path)`: copy the file into the executable's
directory under its own name, removing any previous occupant first. -/
def installSimpleFile (exeDir : Path) (fs : Fs) (archPath : Path) : Fs × Outcome Unit :=
  match archPath.getLast? with
  | none => (fs, .err "Provided path has no file name")
  | some nm =>
    let dest := exeDir ++ [nm]
    let step1 : Fs × Outcome Unit :=
      if Fs.existsP fs dest then
        match Fs.removeFile fs dest with
        | (fs', .ok _) => (fs', .ok ())
        | _ => Fs.removeDirAll fs dest
      else (fs, .ok ())
    match step1 with
    | (fs1, .ok _) =>
      (match Fs.node? fs1 archPath with
       | some (.file m) => (((dest, Node.file m) :: fs1), .ok ())
       | _ => (fs1, .err "copy failed"))
    | r => r

/-- Models `install_archive(path)`: dispatch on the file extension.  The
archive's contents under both readings are supplied as parameters, since
the model does not parse byte streams. -/
def installArchive (cwd exeDir : Path) (fs : Fs) (archPath : Path)
    (zipEntries : List ZipEntry) (tarEntries : List TarEntry) : Fs × Outcome Unit :=
  match archiveKindOf (pathExt archPath) with
  | .zip => installFromZip cwd fs archPath zipEntries
  | .tar => installFromTar exeDir fs archPath tarEntries
  | .tarGz => installFromTarGz cwd exeDir fs archPath tarEntries
  | .plainFile => installSimpleFile exeDir fs archPath

/-! ### Script contract validation (`WasaupEngine::new`, rhai.rs lines 65-152) -/

/-- A script function as seen through `AST::iter_functions`: its name, its
parameter names, and whether it is private. -/
structure RhaiFn : Type where
  name : String
  params : List String
  priv : Bool
deriving DecidableEq

/-- Error message for a zero-parameter function declared with parameters. -/
def noParamsMsg (fn : String) (n : Nat) : String :=
  "Function '" ++ fn ++ "' should not have any parameters, found: " ++ toString n

/-- Error message for a private required function. -/
def notPrivateMsg (fn : String) : String :=
  "Function '" ++ fn ++ "' should not be private"

/-- Error message for `install_version` with the wrong parameter count. -/
def oneParamMsg (n : Nat) : String :=
  "Function 'install_version' should have exactly one parameter, found: " ++ toString n

/-- Error message for `install_version` with a misnamed parameter. -/
def paramNameMsg : String :=
  "Function 'install_version' should have a string parameter named 'version'"

/-- Error message for a missing required function. -/
def requiredMsg (fn : String) : String :=
  "Function '" ++ fn ++ "' is required but not found"

/-- The validation loop of `WasaupEngine::new` over the functions of the
compiled AST, threading the three has-function flags. -/
def validateLoop : List RhaiFn → Bool → Bool → Bool → Except String (Bool × Bool × Bool)
  | [], hl, hc, hi => .ok (hl, hc, hi)
  | f :: rest, hl, hc, hi =>
    if f.name = "latest_version" then
      if f.params.length ≠ 0 then .error (noParamsMsg "latest_version" f.params.length)
      else if f.priv then .error (notPrivateMsg "latest_version")
      else validateLoop rest true hc hi
    else if f.name = "current_version" then
      if f.params.length ≠ 0 then .error (noParamsMsg "current_version" f.params.length)
      else if f.priv then .error (notPrivateMsg "current_version")
      else validateLoop rest hl true hi
    else if f.name = "install_version" then
      if f.params.length ≠ 1 then .error (oneParamMsg f.params.length)
      else if f.params.head? ≠ some "version" then .error paramNameMsg
      else if f.priv then .error (notPrivateMsg "install_version")
      else validateLoop rest hl hc true
    else validateLoop rest hl hc hi

/-- Models `WasaupEngine::new`: run the validation loop, then report any
missing required function, in the order latest, current, install. -/
def WasaupEngine.new (fns : List RhaiFn) : Except String Unit :=
  match validateLoop fns false false false with
  | .error e => .error e
  | .ok (hl, hc, hi) =>
    if !hl then .error (requiredMsg "latest_version")
    else if !hc then .error (requiredMsg "current_version")
    else if !hi then .error (requiredMsg "install_version")
    else .ok ()

/-- Spec-side description of the first rule violation of a single function:
parameter count first, then (for `install_version`) the parameter name,
then visibility. -/
def fnRuleError (f : RhaiFn) : Option String :=
  if f.name = "latest_version" then
    if f.params.length ≠ 0 then some (noParamsMsg "latest_version" f.params.length)
    else if f.priv then some (notPrivateMsg "latest_version")
    else none
  else if f.name = "current_version" then
    if f.params.length ≠ 0 then some (noParamsMsg "current_version" f.params.length)
    else if f.priv then some (notPrivateMsg "current_version")
    else none
  else if f.name = "install_version" then
    if f.params.length ≠ 1 then some (oneParamMsg f.params.length)
    else if f.params.head? ≠ some "version" then some paramNameMsg
    else if f.priv then some (notPrivateMsg "install_version")
    else none
  else none

/-- Spec-side: the violation of the first offending function in iteration
order, if any. -/
def firstRuleError : List RhaiFn → Option String
  | [] => none
  | f :: rest =>
    match fnRuleError f with
    | some e => some e
    | none => firstRuleError rest

/-- Spec-side description of validation following the amended claim: report
the first offending function's first violated rule, else the missing
required functions in the fixed order latest, current, install. -/
def specValidate (fns : List RhaiFn) : Except String Unit :=
  match firstRuleError fns with
  | some e => .error e
  | none =>
    if ¬ fns.any (fun f => f.name = "latest_version") then .error (requiredMsg "latest_version")
    else if ¬ fns.any (fun f => f.name = "current_version") then
      .error (requiredMsg "current_version")
    else if ¬ fns.any (fun f => f.name = "install_version") then
      .error (requiredMsg "install_version")
    else .ok ()

/-! ### Version calls (`current_version`/`latest_version`, rhai.rs 25-53) -/

/-- A parsed semantic version (mirrors `semver::Version`; equality is
structural over all five fields, as with the derived Rust `PartialEq`). -/
structure SemVer : Type where
  major : Nat
  minor : Nat
  patch : Nat
  pre : String
  build : String
deriving DecidableEq

/-- Models `semver::Version`'s `Display`: `major.minor.patch`, then `-pre`
and `+build` when nonempty. -/
def SemVer.render (v : SemVer) : String :=
  toString v.major ++ "." ++ toString v.minor ++ "." ++ toString v.patch
    ++ (if v.pre = "" then "" else "-" ++ v.pre)
    ++ (if v.build = "" then "" else "+" ++ v.build)

/-- Models the parse-and-wrap step of `WasaupEngine::current_version` on
the string the script returned: `semver::Version::parse` is abstracted as
the `parse` parameter. -/
def parseCurrentVersion (parse : String → Except String SemVer) (raw : String) :
    Except String SemVer :=
  match parse raw with
  | .ok v => .ok v
  | .error e => .error ("Failed to parse '" ++ raw ++ "' as current version: " ++ e)

/-- Models the parse-and-wrap step of `WasaupEngine::latest_version`. -/
def parseLatestVersion (parse : String → Except String SemVer) (raw : String) :
    Except String SemVer :=
  match parse raw with
  | .ok v => .ok v
  | .error e => .error ("Failed to parse '" ++ raw ++ "' as latest version: " ++ e)

/-- Models `WasaupEngine::current_version`: a failed script call
propagates; a returned string is parsed. -/
def currentVersionCall (callRes : Except String String)
    (parse : String → Except String SemVer) : Except String SemVer :=
  match callRes with
  | .error e => .error e
  | .ok s => parseCurrentVersion parse s

/-- Models `WasaupEngine::latest_version`. -/
def latestVersionCall (callRes : Except String String)
    (parse : String → Except String SemVer) : Except String SemVer :=
  match callRes with
  | .error e => .error e
  | .ok s => parseLatestVersion parse s

/-! ### Update orchestrator (`main`, cli/src/main.rs lines 152-324) -/

/-- The resolved script interface as the orchestrator consumes it: the two
version calls (already parsed) and the `install_version` call. -/
structure Oracle : Type where
  cur : Except String SemVer
  lat : Except String SemVer
  loc : String → Except String String

/-- Observable trace of one orchestrator run: whether the script's
`install_version` function was invoked, the location `install` was
attempted on (if any), and the process exit code. -/
structure RunTrace : Type where
  calledInstallVersion : Bool
  installAttempted : Option String
  exitCode : Nat
deriving DecidableEq

/-- Models the core of `main` after the script engine is built: resolve
`current_version` and `latest_version` (exit 1 on failure), always call
`install_version(latest.to_string())` (exit 1 on failure), compare the two
versions structurally, exit 0 without installing in check mode, install
only when the versions differ. -/
def orchestrate (o : Oracle) (check : Bool) (installFn : String → Except String Unit) :
    RunTrace :=
  match o.cur with
  | .error _ => ⟨false, none, 1⟩
  | .ok cur =>
    match o.lat with
    | .error _ => ⟨false, none, 1⟩
    | .ok lat =>
      match o.loc (SemVer.render lat) with
      | .error _ => ⟨true, none, 1⟩
      | .ok ip =>
        if check then ⟨true, none, 0⟩
        else if cur = lat then ⟨true, none, 0⟩
        else
          match installFn ip with
          | .ok _ => ⟨true, some ip, 0⟩
          | .error _ => ⟨true, some ip, 1⟩

/-! ### The host `run` capability (utilities.rs lines 43-73) -/

/-- Result of spawning a process: it ran (with a success flag, captured
stdout and a status rendering), or spawning itself failed. -/
inductive ExecRes : Type where
  | ran (success : Bool) (out : String) (status : String)
  | spawnFail (emsg : String)

/-- Whitespace tokenizer (models Rust `str::split_whitespace`); `acc` holds
the current token reversed. -/
def tokenizeAux : List Char → List Char → List (List Char)
  | [], acc => if acc = [] then [] else [acc.reverse]
  | c :: rest, acc =>
    if c.isWhitespace then
      if acc = [] then tokenizeAux rest [] else acc.reverse :: tokenizeAux rest []
    else tokenizeAux rest (c :: acc)

/-- The token list of a command line. -/
def splitWs (s : String) : List String :=
  (tokenizeAux s.data []).map String.mk

/-- Models `utilities::run(cmd)`: split on whitespace, index token 0 (a
panic when there are no tokens), spawn, on spawn failure retry with the
command resolved against the executable's directory (`exeJoin`), and map
the outcome to the script-visible result. -/
def runModel (exec : String → List String → ExecRes) (exeJoin : String → String)
    (cmd : String) : Outcome String :=
  match splitWs cmd with
  | [] => .panicked
  | command :: args =>
    match exec command args with
    | .ran ok out status =>
      if ok then .ok out else .err ("Command '" ++ cmd ++ "' failed with status: " ++ status)
    | .spawnFail _ =>
      match exec (exeJoin command) args with
      | .ran ok out status =>
        if ok then .ok out else .err ("Command '" ++ cmd ++ "' failed with status: " ++ status)
      | .spawnFail e2 => .err ("Failed to execute command '" ++ cmd ++ "': " ++ e2)

/-! ### Concrete scenarios used as counterexamples and witnesses -/

/-- Working directory `/work`, executable directory `/exe`, and the
downloaded archive `/tmp/tool-2.0.0.zip`. -/
def zipDemoFs : Fs :=
  [(["work"], Node.dir 0), (["exe"], Node.dir 0), (["tmp"], Node.dir 0),
   (["tmp", "tool-2.0.0.zip"], Node.file 420)]

/-- A zip archive wrapping its payload in a `tool-2.0.0` directory. -/
def zipDemoEntries : List ZipEntry :=
  [⟨some ["tool-2.0.0"], true, none⟩,
   ⟨some ["tool-2.0.0", "bin"], false, some 493⟩,
   ⟨some ["tool-2.0.0", "readme.txt"], false, none⟩]

/-- A working directory that already contains a directory named `bin`,
plus the archive `/tmp/a.zip`. -/
def panicDemoFs : Fs :=
  [(["work"], Node.dir 0), (["work", "bin"], Node.dir 0), (["tmp"], Node.dir 0),
   (["tmp", "a.zip"], Node.file 420)]

/-- A zip archive with a single file entry `bin`. -/
def panicDemoEntries : List ZipEntry := [⟨some ["bin"], false, none⟩]

/-- A wrapper directory `par/w` whose only child bears the wrapper's own
name `w`. -/
def wrapDemoFs : Fs :=
  [(["par"], Node.dir 0), (["par", "w"], Node.dir 0), (["par", "w", "w"], Node.dir 0)]

/-- A wrapper directory `par/w` whose only child is the file `a.txt`. -/
def unrollDemoFs : Fs :=
  [(["par"], Node.dir 0), (["par", "w"], Node.dir 0), (["par", "w", "a.txt"], Node.file 420)]

/-- A script whose `install_version` both misnames its parameter and is
private. -/
def scriptNamePrivDemo : List RhaiFn :=
  [⟨"latest_version", [], false⟩, ⟨"current_version", [], false⟩,
   ⟨"install_version", ["v"], true⟩]

/-- A script declaring a bad `current_version` before a bad
`latest_version`. -/
def scriptOrderDemo : List RhaiFn :=
  [⟨"current_version", ["x"], false⟩, ⟨"latest_version", ["y"], false⟩,
   ⟨"install_version", ["version"], false⟩]

/-- Version `1.0.0`. -/
def v100 : SemVer := ⟨1, 0, 0, "", ""⟩

/-- Version `1.0.1`. -/
def v101 : SemVer := ⟨1, 0, 1, "", ""⟩

/-- A script resolution where current and latest agree. -/
def oracleEqDemo : Oracle := ⟨.ok v100, .ok v100, fun _ => .ok "path/to/archive-1.0.0.tar.gz"⟩

/-- A script resolution where latest is newer than current. -/
def oracleDiffDemo : Oracle := ⟨.ok v100, .ok v101, fun _ => .ok "path/to/archive-1.0.1.tar.gz"⟩

/-- An installer that always succeeds. -/
def installOkDemo : String → Except String Unit := fun _ => .ok ()

/-- Executable directory `/exe` plus the archive `/tmp/archive.tgz`. -/
def tgzDemoFs : Fs :=
  [(["work"], Node.dir 0), (["exe"], Node.dir 0), (["tmp"], Node.dir 0),
   (["tmp", "archive.tgz"], Node.file 420)]

/-- A tar archive containing a single file `tool`. -/
def tgzDemoEntries : List TarEntry := [⟨["tool"], false⟩]

/-- A filesystem holding the bare dotfile `/tmp/.tgz`. -/
def dotTgzDemoFs : Fs :=
  [(["exe"], Node.dir 0), (["tmp"], Node.dir 0), (["tmp", ".tgz"], Node.file 420)]

/-- A filesystem holding the local file `/tmp/tool.zip`. -/
def routeDemoFs : Fs :=
  [(["tmp"], Node.dir 0), (["tmp", "tool.zip"], Node.file 420)]

/-- A toy stand-in for `semver::Version::parse` accepting only `1.2.3`. -/
def parseDemo : String → Except String SemVer := fun s =>
  if s = "1.2.3" then .ok ⟨1, 2, 3, "", ""⟩
  else .error "unexpected character 'n' while parsing major version number"

/-- A process spawner whose processes always exit with status 1. -/
def execFailDemo : String → List String → ExecRes := fun _ _ =>
  .ran false "" "exit status: 1"

/-! ### Helper lemmas -/

theorem leadsL_iff {α : Type} [DecidableEq α] (p q : List α) :
    leadsL p q = true ↔ ∃ r, q = p ++ r := by
  induction p generalizing q with
  | nil => simp [leadsL]
  | cons a as ih =>
    cases q with
    | nil =>
      constructor
      · intro h; simp [leadsL] at h
      · rintro ⟨r, h⟩; simp at h
    | cons b bs =>
      simp only [leadsL]
      by_cases hab : a = b
      · subst hab
        simp only [eq_self_iff_true, if_true, ih, List.cons_append, List.cons.injEq, true_and]
      · simp only [if_neg hab]
        constructor
        · intro h; simp at h
        · rintro ⟨r, h⟩
          rw [List.cons_append] at h
          injection h with h1 h2
          exact absurd h1.symm hab

theorem leadsL_refl {α : Type} [DecidableEq α] (p : List α) : leadsL p p = true :=
  (leadsL_iff p p).2 ⟨[], by simp⟩

theorem leadsL_append {α : Type} [DecidableEq α] (p r : List α) :
    leadsL p (p ++ r) = true :=
  (leadsL_iff p (p ++ r)).2 ⟨r, rfl⟩

theorem leadsL_false_of_length {α : Type} [DecidableEq α] {p q : List α}
    (h : q.length < p.length) : leadsL p q = false := by
  cases hpq : leadsL p q with
  | false => rfl
  | true =>
    obtain ⟨r, rfl⟩ := (leadsL_iff p q).1 hpq
    simp at h

theorem node?_mem {fs : Fs} {p : Path} {n : Node} (h : Fs.node? fs p = some n) :
    (p, n) ∈ fs := by
  induction fs with
  | nil => simp [Fs.node?] at h
  | cons e rest ih =>
    rw [Fs.node?] at h
    by_cases he : e.1 = p
    · rw [if_pos he] at h
      have : e = (p, n) := by
        cases e
        simp only [Option.some.injEq] at h
        simp_all
      rw [← this]
      exact List.mem_cons_self e rest
    · rw [if_neg he] at h
      exact List.mem_cons_of_mem e (ih h)

theorem node?_isSome_of_mem {fs : Fs} {p : Path} {n : Node} (h : (p, n) ∈ fs) :
    (Fs.node? fs p).isSome = true := by
  induction fs with
  | nil => cases h
  | cons e rest ih =>
    rw [Fs.node?]
    by_cases he : e.1 = p
    · rw [if_pos he]; rfl
    · rw [if_neg he]
      rcases List.mem_cons.1 h with h1 | h1
      · rw [← h1] at he; simp at he
      · exact ih h1

theorem node?_eq_none_iff {fs : Fs} {p : Path} :
    Fs.node? fs p = none ↔ ∀ n, (p, n) ∉ fs := by
  constructor
  · intro h n hn
    have := node?_isSome_of_mem hn
    rw [h] at this
    cases this
  · intro h
    cases hn : Fs.node? fs p with
    | none => rfl
    | some n => exact absurd (node?_mem hn) (h n)

theorem node?_of_nodup_mem {fs : Fs} {p : Path} {n : Node}
    (hd : (fs.map Prod.fst).Nodup) (h : (p, n) ∈ fs) : Fs.node? fs p = some n := by
  induction fs with
  | nil => cases h
  | cons e rest ih =>
    rw [List.map_cons, List.nodup_cons] at hd
    rw [Fs.node?]
    rcases List.mem_cons.1 h with h1 | h1
    · rw [← h1]
      simp
    · by_cases he : e.1 = p
      · exfalso
        apply hd.1
        rw [he]
        exact List.mem_map.2 ⟨(p, n), h1, rfl⟩
      · rw [if_neg he]
        exact ih hd.2 h1

theorem filter_eq_filterMap {α : Type} (f : α → Bool) (l : List α) :
    l.filter f = l.filterMap (fun a => if f a = true then some a else none) := by
  induction l with
  | nil => rfl
  | cons a l ih =>
    rw [List.filter_cons, List.filterMap_cons]
    by_cases h : f a = true
    · rw [if_pos h, if_pos h, ih]
    · rw [if_neg h, if_neg h, ih]

theorem filter_map_eq_filterMap {α β : Type} (f : α → Bool) (g : α → β) (l : List α) :
    (l.filter f).map g = l.filterMap (fun a => if f a = true then some (g a) else none) := by
  induction l with
  | nil => rfl
  | cons a l ih =>
    rw [List.filter_cons, List.filterMap_cons]
    by_cases h : f a = true
    · rw [if_pos h, if_pos h, List.map_cons, ih]
    · rw [if_neg h, if_neg h, ih]

theorem map_eq_filterMap {α β : Type} (g : α → β) (l : List α) :
    l.map g = l.filterMap (fun a => some (g a)) := by
  induction l with
  | nil => rfl
  | cons a l ih => rw [List.map_cons, List.filterMap_cons, ih]

theorem lastDot_eq_none {l : List Char} (h : ∀ c ∈ l, c ≠ '.') : lastDot l = none := by
  induction l with
  | nil => rfl
  | cons c rest ih =>
    rw [lastDot, ih fun x hx => h x (List.mem_cons_of_mem c hx)]
    rw [if_neg (h c (List.mem_cons_self c rest))]

theorem lastDot_append {l suf : List Char} (h : ∀ c ∈ suf, c ≠ '.') :
    lastDot (l ++ '.' :: suf) = some (l, suf) := by
  induction l with
  | nil => rw [List.nil_append, lastDot, lastDot_eq_none h, if_pos rfl]
  | cons c rest ih => rw [List.cons_append, lastDot, ih]

theorem data_ne_nil {s : String} (h : s ≠ "") : s.data ≠ [] := by
  intro hd
  apply h
  cases s
  simp_all

theorem extOfName_dotsuffix (pre : String) (h : pre ≠ "") (suf : List Char)
    (hs : ∀ c ∈ suf, c ≠ '.') (full : String) (hfull : full.data = pre.data ++ '.' :: suf) :
    extOfName full = some (String.mk suf) := by
  rw [extOfName, hfull, lastDot_append hs]
  exact if_neg (data_ne_nil h)

/-- C4 counterexample: the file name `.zip` ends in `.zip` yet classifies as
`PlainFile`, because `Path::extension()` treats a leading-dot-only name as
having no extension; the claim as stated maps every name ending in `.zip`
to `Zip`. -/
theorem c4_counterexample :
    strEndsWith ".zip" ".zip" = true
    ∧ classifyStr ".zip" = ArchiveKind.plainFile
    ∧ classifyStr ".zip" ≠ ArchiveKind.zip := by
  refine ⟨by decide, by decide, by decide⟩

/-- C4 amended: archive-kind classification is a total pure function of the
final path segment's extension (the part after the segment's last dot,
absent when the segment has no dot or only a leading dot, as with Rust
`Path::extension`): extension `zip` gives Zip, `tar` gives Tar, `gz`/`tgz`
give TarGz, and any other segment — including one of the bare dotfile names
`.zip`, `.tar`, `.gz`, `.tgz` — gives PlainFile.  In particular any name
`stem ++ ".zip"` with nonempty stem is Zip, and similarly for the other
suffixes. -/
theorem c4_amended :
    (∀ s : String, ∃! k, classifyStr s = k)
    ∧ (∀ s : String,
        classifyStr s = (match fileName? s with
          | some f => archiveKindOf (extOfName f)
          | none => ArchiveKind.plainFile))
    ∧ (∀ pre : String, pre ≠ "" →
        archiveKindOf (extOfName (pre ++ ".zip")) = ArchiveKind.zip
        ∧ archiveKindOf (extOfName (pre ++ ".tar")) = ArchiveKind.tar
        ∧ archiveKindOf (extOfName (pre ++ ".gz")) = ArchiveKind.tarGz
        ∧ archiveKindOf (extOfName (pre ++ ".tgz")) = ArchiveKind.tarGz)
    ∧ (archiveKindOf (extOfName ".zip") = ArchiveKind.plainFile
        ∧ archiveKindOf (extOfName ".tar") = ArchiveKind.plainFile
        ∧ archiveKindOf (extOfName ".gz") = ArchiveKind.plainFile
        ∧ archiveKindOf (extOfName ".tgz") = ArchiveKind.plainFile)
    ∧ (∀ f : String, extOfName f = none →
        archiveKindOf (extOfName f) = ArchiveKind.plainFile)
    ∧ (∀ f e, extOfName f = some e → e ≠ "zip" → e ≠ "tar" → e ≠ "gz" → e ≠ "tgz" →
        archiveKindOf (extOfName f) = ArchiveKind.plainFile) := by
  refine ⟨?_, ?_, ?_, by decide, ?_, ?_⟩
  · intro s
    exact ⟨classifyStr s, rfl, fun k h => h.symm⟩
  · intro s
    rw [classifyStr]
    cases hf : fileName? s with
    | none => simp [hf, archiveKindOf]
    | some f => simp [hf]
  · intro pre h
    refine ⟨?_, ?_, ?_, ?_⟩
    · rw [extOfName_dotsuffix pre h ['z', 'i', 'p'] (by decide) (pre ++ ".zip") rfl]
      rfl
    · rw [extOfName_dotsuffix pre h ['t', 'a', 'r'] (by decide) (pre ++ ".tar") rfl]
      rfl
    · rw [extOfName_dotsuffix pre h ['g', 'z'] (by decide) (pre ++ ".gz") rfl]
      rfl
    · rw [extOfName_dotsuffix pre h ['t', 'g', 'z'] (by decide) (pre ++ ".tgz") rfl]
      rfl
  · intro f hf
    rw [hf]
    rfl
  · intro f e hf h1 h2 h3 h4
    rw [hf, archiveKindOf]
    simp [h1, h2, h3, h4]

/-- Witness for C4: concrete instances of the amended classification. -/
theorem c4_amended_witness :
    archiveKindOf (extOfName ("tool-2.0.0" ++ ".zip")) = ArchiveKind.zip
    ∧ archiveKindOf (extOfName "archive.exe") = ArchiveKind.plainFile := by
  refine ⟨(c4_amended.2.2.1 "tool-2.0.0" (by decide)).1, ?_⟩
  exact c4_amended.2.2.2.2.2 "archive.exe" "exe" (by decide) (by decide) (by decide) (by decide)
    (by decide)

theorem existsP_of_isFile {fs : Fs} {p : Path} (h : Fs.isFile fs p = true) :
    Fs.existsP fs p = true := by
  rw [Fs.isFile] at h
  rw [Fs.existsP]
  cases hn : Fs.node? fs p with
  | none => rw [hn] at h; cases h
  | some n => rfl

/-- C5 confirmed: `install` classifies a location exactly once, in order —
an existing regular file is installed locally even if the string would
also parse as a URL; otherwise a parseable URL is downloaded; otherwise
the invalid-location error is returned at once.  The classification is a
pure function of the URL parser's verdict on the string (no further
probing). -/
theorem c5_install_location_classification :
    ∀ (fs : Fs) (cwd : Path) (urlOk : String → Bool) (loc : String),
      (Fs.isFile fs (resolvePath cwd loc) = true →
        installRoute fs cwd urlOk loc = InstallRoute.localPath)
      ∧ (Fs.isFile fs (resolvePath cwd loc) = false → urlOk loc = true →
        installRoute fs cwd urlOk loc = InstallRoute.remoteUrl)
      ∧ (Fs.isFile fs (resolvePath cwd loc) = false → urlOk loc = false →
        installRoute fs cwd urlOk loc = InstallRoute.invalid
          ("Location at '" ++ loc ++ "' appears to be an invalid URL and not exist locally."))
      ∧ (∀ urlOk2 : String → Bool, urlOk loc = urlOk2 loc →
        installRoute fs cwd urlOk loc = installRoute fs cwd urlOk2 loc) := by
  intro fs cwd urlOk loc
  refine ⟨?_, ?_, ?_, ?_⟩
  · intro hf
    rw [installRoute, if_pos (by rw [existsP_of_isFile hf, hf]; rfl)]
  · intro hf hu
    simp [installRoute, hf, hu]
  · intro hf hu
    simp [installRoute, hf, hu]
  · intro urlOk2 he
    simp [installRoute, he]

/-- Witness for C5: a real local file beats URL parsing; a nonexistent
path that parses as a URL is downloaded; a nonexistent unparseable string
fails with the invalid-location message. -/
theorem c5_witness :
    installRoute routeDemoFs [] (fun _ => true) "/tmp/tool.zip" = InstallRoute.localPath
    ∧ installRoute routeDemoFs [] (fun s => strEndsWith s ".zip") "http://host/a.zip"
        = InstallRoute.remoteUrl
    ∧ installRoute routeDemoFs [] (fun _ => false) "nope"
        = InstallRoute.invalid
          "Location at 'nope' appears to be an invalid URL and not exist locally." := by
  refine ⟨(c5_install_location_classification routeDemoFs [] (fun _ => true) "/tmp/tool.zip").1
    (by decide), ?_, ?_⟩
  · exact (c5_install_location_classification routeDemoFs []
      (fun s => strEndsWith s ".zip") "http://host/a.zip").2.1 (by decide) (by decide)
  · exact (c5_install_location_classification routeDemoFs []
      (fun _ => false) "nope").2.2.1 (by decide) rfl

/-- C8 confirmed: when the script's `current_version` (or
`latest_version`) returns a string, a successful semantic-version parse is
returned as-is, and a parse failure produces a `ScriptError` whose message
is exactly the parse-failure text, carrying the raw returned string and
the parser's diagnostic. -/
theorem c8_version_parse :
    ∀ (parse : String → Except String SemVer) (s : String),
      (∀ v, parse s = .ok v →
        currentVersionCall (.ok s) parse = .ok v
        ∧ latestVersionCall (.ok s) parse = .ok v)
      ∧ (∀ d, parse s = .error d →
        currentVersionCall (.ok s) parse =
          .error ("Failed to parse '" ++ s ++ "' as current version: " ++ d)
        ∧ latestVersionCall (.ok s) parse =
          .error ("Failed to parse '" ++ s ++ "' as latest version: " ++ d)) := by
  intro parse s
  constructor
  · intro v hv
    constructor
    · simp [currentVersionCall, parseCurrentVersion, hv]
    · simp [latestVersionCall, parseLatestVersion, hv]
  · intro d hd
    constructor
    · simp [currentVersionCall, parseCurrentVersion, hd]
    · simp [latestVersionCall, parseLatestVersion, hd]

/-- Witness for C8: `"1.2.3"` parses and is returned; `"not-a-version"`
fails with a message containing the raw string and the diagnostic. -/
theorem c8_version_parse_witness :
    currentVersionCall (.ok "1.2.3") parseDemo = .ok ⟨1, 2, 3, "", ""⟩
    ∧ currentVersionCall (.ok "not-a-version") parseDemo =
      .error "Failed to parse 'not-a-version' as current version: unexpected character 'n' while parsing major version number" := by
  refine ⟨((c8_version_parse parseDemo "1.2.3").1 _ rfl).1, ?_⟩
  have h := ((c8_version_parse parseDemo "not-a-version").2
    "unexpected character 'n' while parsing major version number" rfl).1
  exact h

theorem tokenizeAux_all_ws {l : List Char} (h : ∀ c ∈ l, c.isWhitespace = true) :
    tokenizeAux l [] = [] := by
  induction l with
  | nil => rfl
  | cons c rest ih =>
    rw [tokenizeAux, if_pos (h c (List.mem_cons_self c rest)), if_pos rfl]
    exact ih fun x hx => h x (List.mem_cons_of_mem c hx)

/-- C10 confirmed: the host `run` capability panics (indexing token 0 of
an empty vector) on every command string whose characters are all
whitespace — including the empty string — and its script-visible error
branches are reachable only when the command has at least one token. -/
theorem c10_run_whitespace_panics :
    ∀ (exec : String → List String → ExecRes) (exeJoin : String → String) (cmd : String),
      ((∀ c ∈ cmd.data, c.isWhitespace = true) →
        runModel exec exeJoin cmd = Outcome.panicked)
      ∧ (∀ e, runModel exec exeJoin cmd = Outcome.err e → splitWs cmd ≠ []) := by
  intro exec exeJoin cmd
  constructor
  · intro h
    have hnil : splitWs cmd = [] := by
      rw [splitWs, tokenizeAux_all_ws h]
      rfl
    rw [runModel, hnil]
  · intro e he hnil
    rw [runModel, hnil] at he
    cases he

/-- Witness for C10: a whitespace-only command panics; a failing real
command reaches the error branch with a nonempty token list. -/
theorem c10_witness :
    runModel execFailDemo id " \t " = Outcome.panicked
    ∧ splitWs "foo" ≠ [] := by
  refine ⟨(c10_run_whitespace_panics execFailDemo id " \t ").1 (by decide), ?_⟩
  exact (c10_run_whitespace_panics execFailDemo id "foo").2
    "Command 'foo' failed with status: exit status: 1" rfl

/-- C2 counterexample: with current and latest both resolving to `1.0.0`,
the orchestrator still calls the script's `install_version` function
(the code computes the install location before comparing), refuting the
claim that equal versions stop the run without calling it; and with
differing versions but check mode on, no install is attempted, refuting
the unconditional "when they differ, install is attempted". -/
theorem c2_counterexample :
    (orchestrate oracleEqDemo false installOkDemo).calledInstallVersion = true
    ∧ (orchestrate oracleEqDemo false installOkDemo).installAttempted = none
    ∧ (orchestrate oracleEqDemo false installOkDemo).exitCode = 0
    ∧ (orchestrate oracleDiffDemo true installOkDemo).installAttempted = none := by
  exact ⟨rfl, rfl, rfl, rfl⟩

/-- C2 amended: whenever both versions resolve, the orchestrator always
invokes `install_version(latest)` before comparing (its failure aborts the
run with exit code 1 and no install); when it succeeds: in check mode the
run stops successfully with no install; with structurally equal versions
the run stops successfully with no install; and with differing versions
outside check mode, install is attempted on the returned location, the run
succeeding exactly when the install does. -/
theorem c2_amended :
    ∀ (o : Oracle) (check : Bool) (installFn : String → Except String Unit) (c l : SemVer),
      o.cur = .ok c → o.lat = .ok l →
      ((orchestrate o check installFn).calledInstallVersion = true
      ∧ (∀ e, o.loc (SemVer.render l) = .error e →
          orchestrate o check installFn = ⟨true, none, 1⟩)
      ∧ (∀ ip, o.loc (SemVer.render l) = .ok ip → check = true →
          orchestrate o check installFn = ⟨true, none, 0⟩)
      ∧ (∀ ip, o.loc (SemVer.render l) = .ok ip → c = l →
          orchestrate o check installFn = ⟨true, none, 0⟩)
      ∧ (∀ ip, o.loc (SemVer.render l) = .ok ip → c ≠ l → check = false →
          (orchestrate o check installFn).installAttempted = some ip
          ∧ (orchestrate o check installFn).exitCode =
              (match installFn ip with | .ok _ => 0 | .error _ => 1))) := by
  intro o check installFn c l hc hl
  refine ⟨?_, ?_, ?_, ?_, ?_⟩
  · cases hloc : o.loc (SemVer.render l) with
    | error e => simp [orchestrate, hc, hl, hloc]
    | ok ip =>
      by_cases hch : check
      · simp [orchestrate, hc, hl, hloc, hch]
      · by_cases heq : c = l
        · simp [orchestrate, hc, hl, hloc, hch, heq]
        · cases hin : installFn ip <;> simp [orchestrate, hc, hl, hloc, hch, heq, hin]
  · intro e hloc
    simp [orchestrate, hc, hl, hloc]
  · intro ip hloc hch
    simp [orchestrate, hc, hl, hloc, hch]
  · intro ip hloc heq
    simp [orchestrate, hc, hl, hloc, heq]
  · intro ip hloc heq hch
    cases hin : installFn ip <;> simp [orchestrate, hc, hl, hloc, heq, hch, hin]

/-- Witness for C2: with current `1.0.0` and latest `1.0.1` outside check
mode, install is attempted on the script's location and the run
succeeds. -/
theorem c2_amended_witness :
    (orchestrate oracleDiffDemo false installOkDemo).installAttempted =
      some "path/to/archive-1.0.1.tar.gz"
    ∧ (orchestrate oracleDiffDemo false installOkDemo).exitCode = 0 := by
  have h := (c2_amended oracleDiffDemo false installOkDemo v100 v101 rfl rfl).2.2.2.2
    "path/to/archive-1.0.1.tar.gz" rfl (by decide) rfl
  exact ⟨h.1, h.2⟩

/-- C3 counterexample: an `install_version(v)` that is both misnamed and
private is reported for the parameter name, not visibility — refuting the
claimed order "parameter-count before visibility before naming"; and a
script declaring a bad `current_version` before a bad `latest_version`
reports `current_version` first — refuting the claimed fixed reporting
order "latest before current" for rule violations. -/
theorem c3_counterexample :
    WasaupEngine.new scriptNamePrivDemo = .error paramNameMsg
    ∧ paramNameMsg ≠ notPrivateMsg "install_version"
    ∧ (scriptNamePrivDemo.map RhaiFn.priv) = [false, false, true]
    ∧ WasaupEngine.new scriptOrderDemo = .error (noParamsMsg "current_version" 1) := by
  refine ⟨rfl, by decide, rfl, rfl⟩

theorem validateLoop_eq (fns : List RhaiFn) (hl hc hi : Bool) :
    validateLoop fns hl hc hi =
      match firstRuleError fns with
      | some e => .error e
      | none => .ok (hl || fns.any (fun f => f.name = "latest_version"),
                     hc || fns.any (fun f => f.name = "current_version"),
                     hi || fns.any (fun f => f.name = "install_version")) := by
  induction fns generalizing hl hc hi with
  | nil => simp [validateLoop, firstRuleError]
  | cons f rest ih =>
    rw [validateLoop, firstRuleError, fnRuleError]
    by_cases h1 : f.name = "latest_version"
    · rw [if_pos h1, if_pos h1]
      by_cases h2 : f.params.length ≠ 0
      · rw [if_pos h2, if_pos h2]
      · rw [if_neg h2, if_neg h2]
        by_cases h3 : f.priv = true
        · rw [if_pos h3, if_pos h3]
        · rw [if_neg h3, if_neg h3, ih]
          cases firstRuleError rest <;> simp [h1]
    · rw [if_neg h1, if_neg h1]
      by_cases h4 : f.name = "current_version"
      · rw [if_pos h4, if_pos h4]
        by_cases h2 : f.params.length ≠ 0
        · rw [if_pos h2, if_pos h2]
        · rw [if_neg h2, if_neg h2]
          by_cases h3 : f.priv = true
          · rw [if_pos h3, if_pos h3]
          · rw [if_neg h3, if_neg h3, ih]
            cases firstRuleError rest <;> simp [h1, h4]
      · rw [if_neg h4, if_neg h4]
        by_cases h5 : f.name = "install_version"
        · rw [if_pos h5, if_pos h5]
          by_cases h2 : f.params.length ≠ 1
          · rw [if_pos h2, if_pos h2]
          · rw [if_neg h2, if_neg h2]
            by_cases h6 : f.params.head? ≠ some "version"
            · rw [if_pos h6, if_pos h6]
            · rw [if_neg h6, if_neg h6]
              by_cases h3 : f.priv = true
              · rw [if_pos h3, if_pos h3]
              · rw [if_neg h3, if_neg h3, ih]
                cases firstRuleError rest <;> simp [h1, h4, h5]
        · rw [if_neg h5, if_neg h5, ih]
          cases firstRuleError rest <;> simp [h1, h4, h5]

/-- C3 amended: validation reports, deterministically, the first offending
function in the engine's function-iteration order, and for a given
function the checks run parameter-count first, then (for
`install_version`) parameter naming, then visibility; only when no
declared function violates a rule are the missing-function errors
reported, in the fixed order latest, current, install. -/
theorem c3_amended : ∀ fns : List RhaiFn, WasaupEngine.new fns = specValidate fns := by
  intro fns
  rw [WasaupEngine.new, specValidate, validateLoop_eq]
  cases h : firstRuleError fns with
  | some e => rfl
  | none => simp

/-- C1 failing run, evaluated on the embedded code: installing
`tool-2.0.0.zip` (wrapping `bin` and `readme.txt`) from working directory
`/work` while the executable lives in `/exe` reports success, yet leaves
`bin` and `readme.txt` inside `/work` — the working directory — and writes
nothing into the executable's directory, because `install_from_zip`
creates entry paths relative to the process working directory and unrolls
a relative path. -/
theorem c1_zip_install_targets_cwd :
    (installFromZip ["work"] zipDemoFs ["tmp", "tool-2.0.0.zip"] zipDemoEntries).2 =
      Outcome.ok ()
    ∧ Fs.node? (installFromZip ["work"] zipDemoFs ["tmp", "tool-2.0.0.zip"] zipDemoEntries).1
        ["work", "bin"] = some (Node.file 493)
    ∧ Fs.node? (installFromZip ["work"] zipDemoFs ["tmp", "tool-2.0.0.zip"] zipDemoEntries).1
        ["work", "readme.txt"] = some (Node.file 420)
    ∧ Fs.node? (installFromZip ["work"] zipDemoFs ["tmp", "tool-2.0.0.zip"] zipDemoEntries).1
        ["work", "tool-2.0.0"] = none
    ∧ Fs.node? (installFromZip ["work"] zipDemoFs ["tmp", "tool-2.0.0.zip"] zipDemoEntries).1
        ["exe", "bin"] = none
    ∧ Fs.node? (installFromZip ["work"] zipDemoFs ["tmp", "tool-2.0.0.zip"] zipDemoEntries).1
        ["exe", "readme.txt"] = none := by
  decide

/-- C7 failing run, evaluated on the embedded code: extracting a zip entry
`bin` where the destination `work/bin` is an existing directory makes
`File::create` fail, and `install_from_zip` unwraps that failure — the
process panics instead of returning the typed Io error the claim
promises. -/
theorem c7_zip_io_failure_panics :
    (installFromZip ["work"] panicDemoFs ["tmp", "a.zip"] panicDemoEntries).2 =
      Outcome.panicked
    ∧ (installFromZip ["work"] panicDemoFs ["tmp", "a.zip"] panicDemoEntries).1 =
      panicDemoFs := by
  decide

/-- C6 counterexample: unrolling `par/w` whose only child is itself named
`w` does not move the child to `par/w` — the preparatory removal of the
destination occupant deletes the wrapper (and the child with it), the
subsequent rename fails, and the child is simply gone. -/
theorem c6_counterexample :
    (unrollFolder wrapDemoFs ["par", "w"]).2 ≠ Outcome.ok ()
    ∧ Fs.node? (unrollFolder wrapDemoFs ["par", "w"]).1 ["par", "w"] = none
    ∧ Fs.isDir wrapDemoFs ["par", "w"] = true
    ∧ childNames wrapDemoFs ["par", "w"] = ["w"] := by
  decide

theorem mkdirpGo_cons_dir {fs : Fs} {done : Path} {c : String} {rest : List String} {m : Nat}
    (hn : Fs.node? fs (done ++ [c]) = some (Node.dir m)) :
    mkdirpGo fs done (c :: rest) = mkdirpGo fs (done ++ [c]) rest := by
  rw [mkdirpGo, hn]

theorem mkdirpGo_cons_file {fs : Fs} {done : Path} {c : String} {rest : List String} {m : Nat}
    (hn : Fs.node? fs (done ++ [c]) = some (Node.file m)) :
    mkdirpGo fs done (c :: rest) = (fs, .err "create_dir_all: not a directory") := by
  rw [mkdirpGo, hn]

theorem mkdirpGo_cons_none {fs : Fs} {done : Path} {c : String} {rest : List String}
    (hn : Fs.node? fs (done ++ [c]) = none) :
    mkdirpGo fs done (c :: rest) =
      mkdirpGo ((done ++ [c], Node.dir 493) :: fs) (done ++ [c]) rest := by
  rw [mkdirpGo, hn]

theorem mkdirpGo_mono (l : List String) (fs : Fs) (done : Path) {q : Path} {n : Node}
    (h : (q, n) ∈ fs) : (q, n) ∈ (mkdirpGo fs done l).1 := by
  induction l generalizing fs done with
  | nil => exact h
  | cons c rest ih =>
    cases hn : Fs.node? fs (done ++ [c]) with
    | none =>
      rw [mkdirpGo_cons_none hn]
      exact ih _ _ (List.mem_cons_of_mem _ h)
    | some node =>
      cases node with
      | dir m => rw [mkdirpGo_cons_dir hn]; exact ih _ _ h
      | file m => rw [mkdirpGo_cons_file hn]; exact h

theorem mkdirpGo_no_panic (l : List String) (fs : Fs) (done : Path) :
    (mkdirpGo fs done l).2 ≠ Outcome.panicked := by
  induction l generalizing fs done with
  | nil => intro h; cases h
  | cons c rest ih =>
    cases hn : Fs.node? fs (done ++ [c]) with
    | none => rw [mkdirpGo_cons_none hn]; exact ih _ _
    | some node =>
      cases node with
      | dir m => rw [mkdirpGo_cons_dir hn]; exact ih _ _
      | file m => rw [mkdirpGo_cons_file hn]; intro h; cases h

theorem mkdirp_exists (l : List String) (fs : Fs) (done : Path)
    (hok : (mkdirpGo fs done l).2 = .ok ()) (hne : l ≠ []) :
    ∃ m, (done ++ l, Node.dir m) ∈ (mkdirpGo fs done l).1 := by
  induction l generalizing fs done with
  | nil => exact absurd rfl hne
  | cons c rest ih =>
    cases hn : Fs.node? fs (done ++ [c]) with
    | none =>
      rw [mkdirpGo_cons_none hn] at hok ⊢
      rcases eq_or_ne rest [] with hrest | hrest
      · subst hrest
        refine ⟨493, ?_⟩
        rw [show mkdirpGo ((done ++ [c], Node.dir 493) :: fs) (done ++ [c]) [] =
          ((done ++ [c], Node.dir 493) :: fs, Outcome.ok ()) from rfl]
        simp
      · have := ih ((done ++ [c], Node.dir 493) :: fs) (done ++ [c]) hok hrest
        simpa [List.append_assoc] using this
    | some node =>
      cases node with
      | dir m =>
        rw [mkdirpGo_cons_dir hn] at hok ⊢
        rcases eq_or_ne rest [] with hrest | hrest
        · subst hrest
          refine ⟨m, ?_⟩
          rw [show mkdirpGo fs (done ++ [c]) [] = (fs, Outcome.ok ()) from rfl]
          simpa using node?_mem hn
        · have := ih fs (done ++ [c]) hok hrest
          simpa [List.append_assoc] using this
      | file m =>
        rw [mkdirpGo_cons_file hn] at hok
        cases hok

theorem createFile_of_dir {fs : Fs} {p : Path} {m : Nat}
    (hn : Fs.node? fs p = some (Node.dir m)) :
    createFile fs p = (fs, .err "File::create: is a directory") := by
  rw [createFile.eq_def, hn]

theorem createFile_of_file {fs : Fs} {p : Path} {m : Nat}
    (hn : Fs.node? fs p = some (Node.file m)) :
    createFile fs p = (fs, .ok ()) := by
  rw [createFile.eq_def, hn]

theorem createFile_mono (fs : Fs) (p : Path) {q : Path} {n : Node}
    (h : (q, n) ∈ fs) : (q, n) ∈ (createFile fs p).1 := by
  rw [createFile.eq_def]
  cases hn : Fs.node? fs p with
  | none =>
    by_cases h0 : p = []
    · rw [if_pos h0]; exact h
    · rw [if_neg h0]
      by_cases h1 : p.dropLast = []
      · rw [if_pos h1]; exact List.mem_cons_of_mem _ h
      · rw [if_neg h1]
        by_cases h2 : Fs.isDir fs p.dropLast = true
        · rw [if_pos h2]; exact List.mem_cons_of_mem _ h
        · rw [if_neg h2]; exact h
  | some node => cases node <;> exact h

theorem createFile_no_panic (fs : Fs) (p : Path) :
    (createFile fs p).2 ≠ Outcome.panicked := by
  rw [createFile.eq_def]
  cases hn : Fs.node? fs p with
  | none =>
    by_cases h0 : p = []
    · rw [if_pos h0]; intro h; cases h
    · rw [if_neg h0]
      by_cases h1 : p.dropLast = []
      · rw [if_pos h1]; intro h; cases h
      · rw [if_neg h1]
        by_cases h2 : Fs.isDir fs p.dropLast = true
        · rw [if_pos h2]; intro h; cases h
        · rw [if_neg h2]; intro h; cases h
  | some node => cases node <;> (intro h; cases h)

theorem createFile_exists (fs : Fs) (p : Path)
    (hok : (createFile fs p).2 = .ok ()) : ∃ n, (p, n) ∈ (createFile fs p).1 := by
  rw [createFile.eq_def] at hok ⊢
  cases hn : Fs.node? fs p with
  | none =>
    rw [hn] at hok
    by_cases h0 : p = []
    · rw [if_pos h0] at hok; simp at hok
    · rw [if_neg h0] at hok ⊢
      by_cases h1 : p.dropLast = []
      · rw [if_pos h1]
        exact ⟨Node.file 420, List.mem_cons_self _ _⟩
      · rw [if_neg h1] at hok ⊢
        by_cases h2 : Fs.isDir fs p.dropLast = true
        · rw [if_pos h2]
          exact ⟨Node.file 420, List.mem_cons_self _ _⟩
        · rw [if_neg h2] at hok; simp at hok
  | some node =>
    rw [hn] at hok
    cases node with
    | dir m => simp at hok
    | file m => exact ⟨Node.file m, node?_mem hn⟩

theorem tarUnpack_cons_dir {dst : Path} {e : TarEntry} {rest : List TarEntry} {fs fs1 : Fs}
    (hd : e.isDirEntry = true) (hm : mkdirp fs (dst ++ e.path) = (fs1, .ok ())) :
    tarUnpackEntries dst (e :: rest) fs = tarUnpackEntries dst rest fs1 := by
  rw [tarUnpackEntries, if_pos hd, hm]

theorem tarUnpack_cons_dir_fail {dst : Path} {e : TarEntry} {rest : List TarEntry}
    {fs fs1 : Fs} {msg : String}
    (hd : e.isDirEntry = true) (hm : mkdirp fs (dst ++ e.path) = (fs1, .err msg)) :
    tarUnpackEntries dst (e :: rest) fs = (fs1, .err msg) := by
  rw [tarUnpackEntries, if_pos hd, hm]

theorem tarUnpack_cons_file {dst : Path} {e : TarEntry} {rest : List TarEntry}
    {fs fs1 fs2 : Fs}
    (hd : e.isDirEntry = false) (hm : mkdirp fs (dst ++ e.path).dropLast = (fs1, .ok ()))
    (hc : createFile fs1 (dst ++ e.path) = (fs2, .ok ())) :
    tarUnpackEntries dst (e :: rest) fs = tarUnpackEntries dst rest fs2 := by
  have hcond : ¬ (e.isDirEntry = true) := by simp [hd]
  rw [tarUnpackEntries, if_neg hcond, hm]
  dsimp only
  rw [hc]

theorem tarUnpack_cons_file_fail1 {dst : Path} {e : TarEntry} {rest : List TarEntry}
    {fs fs1 : Fs} {msg : String}
    (hd : e.isDirEntry = false) (hm : mkdirp fs (dst ++ e.path).dropLast = (fs1, .err msg)) :
    tarUnpackEntries dst (e :: rest) fs = (fs1, .err msg) := by
  have hcond : ¬ (e.isDirEntry = true) := by simp [hd]
  rw [tarUnpackEntries, if_neg hcond, hm]

theorem tarUnpack_cons_file_fail2 {dst : Path} {e : TarEntry} {rest : List TarEntry}
    {fs fs1 fs2 : Fs} {msg : String}
    (hd : e.isDirEntry = false) (hm : mkdirp fs (dst ++ e.path).dropLast = (fs1, .ok ()))
    (hc : createFile fs1 (dst ++ e.path) = (fs2, .err msg)) :
    tarUnpackEntries dst (e :: rest) fs = (fs2, .err msg) := by
  have hcond : ¬ (e.isDirEntry = true) := by simp [hd]
  rw [tarUnpackEntries, if_neg hcond, hm]
  dsimp only
  rw [hc]

theorem mkdirp_snd_cases (fs : Fs) (p : Path) :
    (mkdirp fs p).2 = .ok () ∨ ∃ msg, (mkdirp fs p).2 = .err msg := by
  cases hr : (mkdirp fs p).2 with
  | ok a => cases a; exact Or.inl rfl
  | err m => exact Or.inr ⟨m, rfl⟩
  | panicked => exact absurd hr (mkdirpGo_no_panic p fs [])

theorem createFile_snd_cases (fs : Fs) (p : Path) :
    (createFile fs p).2 = .ok () ∨ ∃ msg, (createFile fs p).2 = .err msg := by
  cases hr : (createFile fs p).2 with
  | ok a => cases a; exact Or.inl rfl
  | err m => exact Or.inr ⟨m, rfl⟩
  | panicked => exact absurd hr (createFile_no_panic fs p)

theorem isDirEntry_false_of_not {e : TarEntry} (hd : ¬ e.isDirEntry = true) :
    e.isDirEntry = false := by
  cases hb : e.isDirEntry
  · rfl
  · exact absurd hb hd

theorem tarUnpack_mono (es : List TarEntry) (dst : Path) (fs : Fs) {q : Path} {n : Node}
    (h : (q, n) ∈ fs) : (q, n) ∈ (tarUnpackEntries dst es fs).1 := by
  induction es generalizing fs with
  | nil => exact h
  | cons e rest ih =>
    by_cases hd : e.isDirEntry = true
    · rcases mkdirp_snd_cases fs (dst ++ e.path) with hr | ⟨msg, hr⟩
      · rw [tarUnpack_cons_dir hd (by rw [← hr])]
        exact ih _ (mkdirpGo_mono _ _ _ h)
      · rw [tarUnpack_cons_dir_fail hd (by rw [← hr])]
        exact mkdirpGo_mono _ _ _ h
    · have hd' := isDirEntry_false_of_not hd
      rcases mkdirp_snd_cases fs (dst ++ e.path).dropLast with hr | ⟨msg, hr⟩
      · have h1 : (q, n) ∈ (mkdirp fs (dst ++ e.path).dropLast).1 := mkdirpGo_mono _ _ _ h
        rcases createFile_snd_cases (mkdirp fs (dst ++ e.path).dropLast).1 (dst ++ e.path)
          with hr2 | ⟨msg2, hr2⟩
        · rw [tarUnpack_cons_file hd' (by rw [← hr]) (by rw [← hr2])]
          exact ih _ (createFile_mono _ _ h1)
        · rw [tarUnpack_cons_file_fail2 hd' (by rw [← hr]) (by rw [← hr2])]
          exact createFile_mono _ _ h1
      · rw [tarUnpack_cons_file_fail1 hd' (by rw [← hr])]
        exact mkdirpGo_mono _ _ _ h

theorem tarUnpack_no_panic (dst : Path) (es : List TarEntry) (fs : Fs) :
    (tarUnpackEntries dst es fs).2 ≠ Outcome.panicked := by
  induction es generalizing fs with
  | nil => intro h; cases h
  | cons e rest ih =>
    by_cases hd : e.isDirEntry = true
    · rcases mkdirp_snd_cases fs (dst ++ e.path) with hr | ⟨msg, hr⟩
      · rw [tarUnpack_cons_dir hd (by rw [← hr])]
        exact ih _
      · rw [tarUnpack_cons_dir_fail hd (by rw [← hr])]
        intro h; cases h
    · have hd' := isDirEntry_false_of_not hd
      rcases mkdirp_snd_cases fs (dst ++ e.path).dropLast with hr | ⟨msg, hr⟩
      · rcases createFile_snd_cases (mkdirp fs (dst ++ e.path).dropLast).1 (dst ++ e.path)
          with hr2 | ⟨msg2, hr2⟩
        · rw [tarUnpack_cons_file hd' (by rw [← hr]) (by rw [← hr2])]
          exact ih _
        · rw [tarUnpack_cons_file_fail2 hd' (by rw [← hr]) (by rw [← hr2])]
          intro h; cases h
      · rw [tarUnpack_cons_file_fail1 hd' (by rw [← hr])]
        intro h; cases h

theorem tarUnpack_extracts (es : List TarEntry) (dst : Path) (fs : Fs)
    (hne : ∀ e ∈ es, e.path ≠ [])
    (hok : (tarUnpackEntries dst es fs).2 = .ok ()) :
    ∀ e ∈ es, ∃ n, (dst ++ e.path, n) ∈ (tarUnpackEntries dst es fs).1 := by
  induction es generalizing fs with
  | nil => intro e he; cases he
  | cons e0 rest ih =>
    intro e he
    by_cases hd : e0.isDirEntry = true
    · rcases mkdirp_snd_cases fs (dst ++ e0.path) with hr | ⟨msg, hr⟩
      · rw [tarUnpack_cons_dir hd (by rw [← hr])] at hok ⊢
        rcases List.mem_cons.1 he with he0 | he1
        · subst he0
          obtain ⟨m, hmem⟩ := mkdirp_exists (dst ++ e.path) fs [] hr
            (by
              intro hnil
              exact hne e (List.mem_cons_self _ _) (List.append_eq_nil.1 hnil).2)
          rw [List.nil_append] at hmem
          exact ⟨Node.dir m, tarUnpack_mono _ _ _ hmem⟩
        · exact ih _ (fun x hx => hne x (List.mem_cons_of_mem _ hx)) hok e he1
      · rw [tarUnpack_cons_dir_fail hd (by rw [← hr])] at hok
        simp at hok
    · have hd' := isDirEntry_false_of_not hd
      rcases mkdirp_snd_cases fs (dst ++ e0.path).dropLast with hr | ⟨msg, hr⟩
      · rcases createFile_snd_cases (mkdirp fs (dst ++ e0.path).dropLast).1 (dst ++ e0.path)
          with hr2 | ⟨msg2, hr2⟩
        · rw [tarUnpack_cons_file hd' (by rw [← hr]) (by rw [← hr2])] at hok ⊢
          rcases List.mem_cons.1 he with he0 | he1
          · subst he0
            obtain ⟨n, hmem⟩ := createFile_exists (mkdirp fs (dst ++ e.path).dropLast).1
              (dst ++ e.path) hr2
            exact ⟨n, tarUnpack_mono _ _ _ hmem⟩
          · exact ih _ (fun x hx => hne x (List.mem_cons_of_mem _ hx)) hok e he1
        · rw [tarUnpack_cons_file_fail2 hd' (by rw [← hr]) (by rw [← hr2])] at hok
          simp at hok
      · rw [tarUnpack_cons_file_fail1 hd' (by rw [← hr])] at hok
        simp at hok

theorem installFromTarGz_unpack_ok (cwd : Path) {exeDir : Path} {fs fs1 : Fs}
    {archPath : Path} {nm : String} {es : List TarEntry}
    (hfile : Fs.isFile fs archPath = true)
    (hu : tarUnpackEntries exeDir es fs = (fs1, .ok ()))
    (hlast : archPath.getLast? = some nm)
    (hnends : strEndsWith nm ".tar.gz" = false) :
    installFromTarGz cwd exeDir fs archPath es =
      (fs1, .err "File name does not end with .tar.gz") := by
  rw [installFromTarGz, if_pos hfile, hu]
  dsimp only
  rw [hlast]
  dsimp only
  rw [show stripSuffix? nm ".tar.gz" = none from by rw [stripSuffix?, if_neg (by simp [hnends])]]

theorem installFromTarGz_unpack_err (cwd exeDir : Path) {fs fs1 : Fs} {archPath : Path}
    {es : List TarEntry} {msg : String}
    (hfile : Fs.isFile fs archPath = true)
    (hu : tarUnpackEntries exeDir es fs = (fs1, .err msg)) :
    installFromTarGz cwd exeDir fs archPath es = (fs1, .err msg) := by
  rw [installFromTarGz, if_pos hfile, hu]

/-- C9 counterexample: the bare dotfile name `.tgz` ends in `.tgz` and not
in `.tar.gz`, yet `Path::extension()` sees no extension in it, so
`install_archive` dispatches it to the plain-file copy, which succeeds —
refuting the claim's assertion that every such install is sent down the
TarGz path and never reports success. -/
theorem c9_counterexample :
    strEndsWith ".tgz" ".tgz" = true
    ∧ strEndsWith ".tgz" ".tar.gz" = false
    ∧ archiveKindOf (pathExt ["tmp", ".tgz"]) = ArchiveKind.plainFile
    ∧ installArchive ["work"] ["exe"] dotTgzDemoFs ["tmp", ".tgz"] [] []
        = installSimpleFile ["exe"] dotTgzDemoFs ["tmp", ".tgz"]
    ∧ (installArchive ["work"] ["exe"] dotTgzDemoFs ["tmp", ".tgz"] [] []).2
        = Outcome.ok () := by
  decide

theorem extOfName_tgz_of_ends {nm : String}
    (hends : strEndsWith nm ".tgz" = true) (hne : nm ≠ ".tgz") :
    extOfName nm = some "tgz" := by
  rw [strEndsWith] at hends
  obtain ⟨r, hr⟩ := (leadsL_iff _ _).1 hends
  have h2 := congrArg List.reverse hr
  rw [List.reverse_reverse, List.reverse_append, List.reverse_reverse] at h2
  have hrne : r ≠ [] := by
    intro h0
    apply hne
    rw [h0] at h2
    simp at h2
    cases nm with
    | mk d => exact congrArg String.mk h2
  have hpre : String.mk r.reverse ≠ "" := by
    intro h0
    apply hrne
    have hd := congrArg String.data h0
    simp at hd
    exact hd
  exact extOfName_dotsuffix (String.mk r.reverse) hpre ['t', 'g', 'z'] (by decide) nm h2

/-- C9 amended: an archive whose final name ends in `.tgz` but not in
`.tar.gz` and is not the bare dotfile name `.tgz` (which has no extension
in `Path::extension`'s sense and is dispatched to the plain-file copy
instead, where it can succeed) is dispatched to the tar.gz installer,
which unpacks it into the executable's directory and then always fails —
the base-name computation strips a literal `.tar.gz` suffix — so such a
`.tgz` install never reports success even though the archive's entries
have already been written (the final state is exactly the post-unpack
state, and on a successful unpack every entry exists under the
executable's directory). -/
theorem c9_amended :
    ∀ (cwd exeDir : Path) (fs : Fs) (archPath : Path) (nm : String)
      (zipEntries : List ZipEntry) (tarEntries : List TarEntry),
      archPath.getLast? = some nm →
      strEndsWith nm ".tgz" = true →
      nm ≠ ".tgz" →
      strEndsWith nm ".tar.gz" = false →
      Fs.isFile fs archPath = true →
      (installArchive cwd exeDir fs archPath zipEntries tarEntries =
        installFromTarGz cwd exeDir fs archPath tarEntries)
      ∧ ((installFromTarGz cwd exeDir fs archPath tarEntries).1 =
        (tarUnpackEntries exeDir tarEntries fs).1)
      ∧ (∃ msg, (installFromTarGz cwd exeDir fs archPath tarEntries).2 = .err msg)
      ∧ ((∀ e ∈ tarEntries, e.path ≠ []) →
        (tarUnpackEntries exeDir tarEntries fs).2 = .ok () →
        ∀ e ∈ tarEntries, ∃ n,
          (exeDir ++ e.path, n) ∈ (installFromTarGz cwd exeDir fs archPath tarEntries).1) := by
  intro cwd exeDir fs archPath nm zipEntries tarEntries hlast hends hnm hnends hfile
  have hext : extOfName nm = some "tgz" := extOfName_tgz_of_ends hends hnm
  have hdisp : archiveKindOf (pathExt archPath) = ArchiveKind.tarGz := by
    rw [pathExt, hlast, Option.some_bind, hext]
    rfl
  have h1 : installArchive cwd exeDir fs archPath zipEntries tarEntries =
      installFromTarGz cwd exeDir fs archPath tarEntries := by
    rw [installArchive.eq_def, hdisp]
  cases h2 : tarUnpackEntries exeDir tarEntries fs with
  | mk fs1 r1 =>
    cases r1 with
    | ok a =>
      cases a
      have heq := installFromTarGz_unpack_ok cwd hfile h2 hlast hnends
      refine ⟨h1, by rw [heq], ⟨_, by rw [heq]⟩, ?_⟩
      intro hne hok e he
      have hok2 : (tarUnpackEntries exeDir tarEntries fs).2 = .ok () := by rw [h2]
      obtain ⟨n, hmem⟩ := tarUnpack_extracts tarEntries exeDir fs hne hok2 e he
      rw [h2] at hmem
      exact ⟨n, by rw [heq]; exact hmem⟩
    | err m =>
      have heq := installFromTarGz_unpack_err cwd exeDir hfile h2
      refine ⟨h1, by rw [heq], ⟨m, by rw [heq]⟩, ?_⟩
      intro hne hok e he
      simp at hok
    | panicked =>
      exact absurd (by rw [h2]) (tarUnpack_no_panic exeDir tarEntries fs)

/-- Witness for the amended C9: installing `/tmp/archive.tgz` extracts
`tool` under the executable's directory yet ends in an error. -/
theorem c9_amended_witness :
    (∃ msg, (installFromTarGz ["work"] ["exe"] tgzDemoFs ["tmp", "archive.tgz"]
      tgzDemoEntries).2 = Outcome.err msg)
    ∧ ∃ n, (["exe"] ++ ["tool"], n) ∈ (installFromTarGz ["work"] ["exe"] tgzDemoFs
      ["tmp", "archive.tgz"] tgzDemoEntries).1 := by
  have h := c9_amended ["work"] ["exe"] tgzDemoFs ["tmp", "archive.tgz"]
    "archive.tgz" [] tgzDemoEntries (by decide) (by decide) (by decide) (by decide) (by decide)
  refine ⟨h.2.2.1, ?_⟩
  exact h.2.2.2 (by decide) (by decide) ⟨["tool"], false⟩ (by decide)

theorem leadsL_length_le {α : Type} [DecidableEq α] {p q : List α}
    (h : leadsL p q = true) : p.length ≤ q.length := by
  obtain ⟨r, rfl⟩ := (leadsL_iff p q).1 h
  simp

theorem leadsL_eq_of_length {α : Type} [DecidableEq α] {p q : List α}
    (h : leadsL p q = true) (hl : p.length = q.length) : p = q := by
  obtain ⟨r, rfl⟩ := (leadsL_iff p q).1 h
  have hr : r.length = 0 := by
    rw [List.length_append] at hl
    omega
  rw [List.length_eq_zero.1 hr, List.append_nil]

theorem leadsL_trans {α : Type} [DecidableEq α] {a b c : List α}
    (h1 : leadsL a b = true) (h2 : leadsL b c = true) : leadsL a c = true := by
  obtain ⟨r1, rfl⟩ := (leadsL_iff a b).1 h1
  obtain ⟨r2, rfl⟩ := (leadsL_iff _ c).1 h2
  exact (leadsL_iff _ _).2 ⟨r1 ++ r2, by simp⟩

theorem leadsL_append_left {α : Type} [DecidableEq α] (c : List α) {a b : List α}
    (h : leadsL a b = true) : leadsL (c ++ a) (c ++ b) = true := by
  obtain ⟨r, rfl⟩ := (leadsL_iff a b).1 h
  exact (leadsL_iff _ _).2 ⟨r, by simp⟩

theorem leadsL_append_cases {α : Type} [DecidableEq α] {q a b : List α}
    (h : leadsL q (a ++ b) = true) :
    (leadsL q a = true) ∨ ∃ r2, q = a ++ r2 ∧ leadsL r2 b = true := by
  obtain ⟨t, ht⟩ := (leadsL_iff q (a ++ b)).1 h
  rcases List.append_eq_append_iff.1 ht.symm with ⟨u, hu1, hu2⟩ | ⟨u, hu1, hu2⟩
  · left
    exact (leadsL_iff _ _).2 ⟨u, hu1⟩
  · right
    exact ⟨u, hu1, (leadsL_iff _ _).2 ⟨t, hu2⟩⟩

theorem leadsL_snoc {α : Type} [DecidableEq α] {q a : List α} {x : α}
    (h : leadsL q (a ++ [x]) = true) (hne : q ≠ a ++ [x]) : leadsL q a = true := by
  rcases leadsL_append_cases h with h1 | ⟨r2, hq, hr⟩
  · exact h1
  · obtain ⟨t, ht⟩ := (leadsL_iff r2 [x]).1 hr
    cases r2 with
    | nil =>
      rw [hq, List.append_nil]
      exact leadsL_refl a
    | cons y ys =>
      exfalso
      apply hne
      rw [List.cons_append] at ht
      injection ht with h1 h2
      have hys : ys = [] := (List.append_eq_nil.1 h2.symm).1
      rw [hq, hys, h1]

theorem leadsL_mid_cancel {α : Type} [DecidableEq α] {a : List α} {c w : α} {t : List α}
    (h : leadsL (a ++ [c]) (a ++ w :: t) = true) : c = w := by
  obtain ⟨r, hr⟩ := (leadsL_iff _ _).1 h
  rw [List.append_assoc] at hr
  have := List.append_cancel_left hr
  injection this with h1 _
  exact h1.symm

theorem nodup_map_inj {α β : Type} (f : α → β) (l : List α)
    (hinj : ∀ a1 ∈ l, ∀ a2 ∈ l, f a1 = f a2 → a1 = a2)
    (hl : l.Nodup) : (l.map f).Nodup := by
  induction l with
  | nil => exact List.nodup_nil
  | cons a rest ih =>
    rw [List.map_cons, List.nodup_cons]
    rw [List.nodup_cons] at hl
    constructor
    · intro hmem
      obtain ⟨a2, ha2, heq⟩ := List.mem_map.1 hmem
      have := hinj a (List.mem_cons_self _ _) a2 (List.mem_cons_of_mem _ ha2) heq.symm
      rw [this] at hl
      exact hl.1 ha2
    · exact ih (fun a1 h1 a2 h2 => hinj a1 (List.mem_cons_of_mem _ h1)
        a2 (List.mem_cons_of_mem _ h2)) hl.2

theorem nodup_filterMap_inj {α β : Type} (g : α → Option β) (l : List α)
    (hinj : ∀ a1 ∈ l, ∀ a2 ∈ l, ∀ b, g a1 = some b → g a2 = some b → a1 = a2)
    (hl : l.Nodup) : (l.filterMap g).Nodup := by
  induction l with
  | nil => exact List.nodup_nil
  | cons a rest ih =>
    rw [List.filterMap_cons]
    rw [List.nodup_cons] at hl
    have ihrest := ih (fun a1 h1 a2 h2 b hb1 hb2 => hinj a1 (List.mem_cons_of_mem _ h1)
      a2 (List.mem_cons_of_mem _ h2) b hb1 hb2) hl.2
    cases hg : g a with
    | none => exact ihrest
    | some b =>
      rw [List.nodup_cons]
      refine ⟨?_, ihrest⟩
      intro hmem
      obtain ⟨a2, ha2, heq⟩ := List.mem_filterMap.1 hmem
      have := hinj a (List.mem_cons_self _ _) a2 (List.mem_cons_of_mem _ ha2) b hg heq
      rw [this] at hl
      exact hl.1 ha2

theorem childNames_of_mem {fs : Fs} {p : Path} {c : String} {n : Node}
    (h : (p ++ [c], n) ∈ fs) : c ∈ childNames fs p := by
  rw [childNames]
  apply List.mem_filterMap.2
  refine ⟨(p ++ [c], n), h, ?_⟩
  rw [if_pos]
  · rw [List.drop_left]
    rfl
  · rw [leadsL_append, Bool.true_and]
    simp

theorem mem_of_childNames {fs : Fs} {p : Path} {c : String}
    (h : c ∈ childNames fs p) : ∃ n, (p ++ [c], n) ∈ fs := by
  rw [childNames] at h
  obtain ⟨e, he, heq⟩ := List.mem_filterMap.1 h
  by_cases hcond : (leadsL p e.1 && e.1.length == p.length + 1) = true
  · rw [if_pos hcond] at heq
    rw [Bool.and_eq_true, beq_iff_eq] at hcond
    obtain ⟨r, hr⟩ := (leadsL_iff p e.1).1 hcond.1
    have hrlen : r.length = 1 := by
      have := hcond.2
      rw [hr] at this
      simp at this
      exact this
    obtain ⟨x, hx⟩ := List.length_eq_one.1 hrlen
    rw [hr, hx, List.drop_left] at heq
    simp at heq
    subst heq
    refine ⟨e.2, ?_⟩
    rw [← hx, ← hr]
    exact he
  · rw [if_neg hcond] at heq
    cases heq

theorem childNames_nodup {fs : Fs} {p : Path} (hnodup : (fs.map Prod.fst).Nodup) :
    (childNames fs p).Nodup := by
  have hkey : childNames fs p = (fs.map Prod.fst).filterMap fun k =>
      if leadsL p k && k.length == p.length + 1 then (k.drop p.length).head? else none := by
    rw [childNames, List.filterMap_map]
    rfl
  rw [hkey]
  apply nodup_filterMap_inj _ _ _ hnodup
  intro k1 _ k2 _ c h1 h2
  have hk : ∀ k : Path, (if leadsL p k && k.length == p.length + 1
      then (k.drop p.length).head? else none) = some c → k = p ++ [c] := by
    intro k hkc
    by_cases hcond : (leadsL p k && k.length == p.length + 1) = true
    · rw [if_pos hcond] at hkc
      rw [Bool.and_eq_true, beq_iff_eq] at hcond
      obtain ⟨r, hr⟩ := (leadsL_iff p k).1 hcond.1
      have hrlen : r.length = 1 := by
        have := hcond.2
        rw [hr] at this
        simp at this
        exact this
      obtain ⟨x, hx⟩ := List.length_eq_one.1 hrlen
      rw [hr, hx, List.drop_left] at hkc
      simp at hkc
      subst hkc
      rw [hr, hx]
    · rw [if_neg hcond] at hkc
      cases hkc
  rw [hk k1 h1, hk k2 h2]

theorem wf_anc {fs : Fs} (hwf : FsWf fs) :
    ∀ e ∈ fs, ∀ q : Path, q ≠ [] → leadsL q e.1 = true → q ≠ e.1 →
      ∃ m, (q, Node.dir m) ∈ fs := by
  intro e he q hq hlead hne
  obtain ⟨r, hr⟩ := (leadsL_iff q e.1).1 hlead
  have hrne : r ≠ [] := by
    intro h
    apply hne
    rw [hr, h, List.append_nil]
  have hlt : q.length < e.1.length := by
    rw [hr]
    simp
    cases r with
    | nil => exact absurd rfl hrne
    | cons x xs => simp
  have htake : e.1.take q.length = q := by
    rw [hr, List.take_left]
  have := hwf.2.2 e he q.length (List.mem_range.2 hlt)
    (by cases q with
      | nil => exact absurd rfl hq
      | cons x xs => simp)
  rw [htake] at this
  rw [Fs.isDir] at this
  cases hn : Fs.node? fs q with
  | none => rw [hn] at this; cases this
  | some node =>
    cases node with
    | file m => rw [hn] at this; cases this
    | dir m => exact ⟨m, node?_mem hn⟩

theorem unrollStepRemove_eq (fs : Fs) (dest : Path)
    (hnodup : (fs.map Prod.fst).Nodup)
    (hanc : ∀ e ∈ fs, leadsL dest e.1 = true → e.1 ≠ dest → ∃ m, (dest, Node.dir m) ∈ fs) :
    unrollStepRemove fs dest = (fs.filter (fun e => !(leadsL dest e.1)), .ok ()) := by
  cases hn : Fs.node? fs dest with
  | none =>
    have hno : ∀ e ∈ fs, (!(leadsL dest e.1)) = true := by
      intro e he
      cases hl : leadsL dest e.1 with
      | false => rfl
      | true =>
        exfalso
        by_cases heq : e.1 = dest
        · have hmem : (dest, e.2) ∈ fs := by rw [← heq]; exact he
          have := node?_isSome_of_mem hmem
          rw [hn] at this
          cases this
        · obtain ⟨m, hm⟩ := hanc e he hl heq
          have := node?_isSome_of_mem hm
          rw [hn] at this
          cases this
    rw [unrollStepRemove, if_neg (by rw [Fs.existsP, hn]; simp)]
    rw [List.filter_eq_self.2 hno]
  | some node =>
    cases node with
    | file mf =>
      rw [unrollStepRemove, if_pos (by rw [Fs.existsP, hn]; rfl)]
      rw [show Fs.removeFile fs dest = (removeExact fs dest, Outcome.ok ()) from by
        rw [Fs.removeFile, hn]]
      dsimp only
      rw [removeExact]
      have hptw : ∀ e ∈ fs, (!(e.1 == dest)) = (!(leadsL dest e.1)) := by
        intro e he
        by_cases heq : e.1 = dest
        · rw [heq]
          rw [leadsL_refl]
          simp
        · have hlf : leadsL dest e.1 = false := by
            cases hl : leadsL dest e.1 with
            | false => rfl
            | true =>
              exfalso
              obtain ⟨m, hm⟩ := hanc e he hl heq
              have := node?_of_nodup_mem hnodup hm
              rw [hn] at this
              cases this
          rw [hlf]
          simp [heq]
      rw [List.filter_congr hptw]
    | dir md =>
      rw [unrollStepRemove, if_pos (by rw [Fs.existsP, hn]; rfl)]
      rw [show Fs.removeFile fs dest = (fs, Outcome.err "remove_file failed") from by
        rw [Fs.removeFile, hn]]
      dsimp only
      rw [Fs.removeDirAll, if_pos (by rw [Fs.isDir, hn])]
      rfl

theorem rename_eq_map {fs : Fs} {src dst : Path} {n : Node}
    (hsrc : Fs.node? fs src = some n) (hdst : Fs.node? fs dst = none) :
    Fs.rename fs src dst = (fs.map (relocateEntry src dst), .ok ()) := by
  rw [Fs.rename, hsrc, hdst]
  cases n <;> rfl

theorem unrollGo_cons_eq {p : Path} {c : String} (cs : List String) {fs fs1 fs2 : Fs}
    (hstep : unrollStepRemove fs (p.dropLast ++ [c]) = (fs1, .ok ()))
    (hren : Fs.rename fs1 (p ++ [c]) (p.dropLast ++ [c]) = (fs2, .ok ())) :
    unrollGo p (c :: cs) fs = unrollGo p cs fs2 := by
  rw [unrollGo, hstep]
  dsimp only
  rw [hren]

theorem step_state_eq (fs : Fs) (p : Path) (c : String) :
    (fs.filter (fun e => !(leadsL (p.dropLast ++ [c]) e.1))).map
      (relocateEntry (p ++ [c]) (p.dropLast ++ [c])) =
      fs.filterMap (stepEntry p c) := by
  rw [filter_map_eq_filterMap]
  apply List.filterMap_congr
  intro e _
  rw [stepEntry]
  cases hl : leadsL (p.dropLast ++ [c]) e.1 <;> simp [hl]

theorem bool_false {b : Bool} (h : ¬ b = true) : b = false := by
  cases b
  · rfl
  · exact absurd rfl h

theorem dropLast_snoc {α : Type} (l : List α) (b : α) : (l ++ [b]).dropLast = l := by
  induction l with
  | nil => rfl
  | cons a rest ih =>
    rw [List.cons_append]
    cases hr : rest ++ [b] with
    | nil => cases rest <;> cases hr
    | cons x xs =>
      rw [List.dropLast_cons₂, ← hr, ih]

theorem dest_not_leads_under (par : Path) {c w : String} (hne : c ≠ w) (t : Path) :
    leadsL (par ++ [c]) ((par ++ [w]) ++ t) = false := by
  cases hl : leadsL (par ++ [c]) ((par ++ [w]) ++ t) with
  | false => rfl
  | true =>
    exfalso
    rw [List.append_assoc, List.singleton_append] at hl
    exact hne (leadsL_mid_cancel hl)

theorem dest_not_leads_p {par : Path} {c w : String} (hne : c ≠ w) :
    leadsL (par ++ [c]) (par ++ [w]) = false := by
  have h := dest_not_leads_under par hne ([] : Path)
  rw [List.append_nil] at h
  exact h

theorem src_not_leads_short {src q : Path} (h : q.length < src.length) :
    leadsL src q = false :=
  leadsL_false_of_length h

theorem src_not_leads_sibling {p : Path} {c c' : String} (hne : c ≠ c') :
    leadsL (p ++ [c]) (p ++ [c']) = false := by
  cases hl : leadsL (p ++ [c]) (p ++ [c']) with
  | false => rfl
  | true =>
    exfalso
    have := leadsL_eq_of_length hl (by simp)
    have := List.append_cancel_left this
    injection this with h1 _
    exact hne h1

theorem stepEntry_none {p : Path} {c : String} {e : Path × Node}
    (hl : leadsL (p.dropLast ++ [c]) e.1 = true) : stepEntry p c e = none := by
  rw [stepEntry, if_pos hl]

theorem stepEntry_some {p : Path} {c : String} {e : Path × Node}
    (hl : leadsL (p.dropLast ++ [c]) e.1 = false) :
    stepEntry p c e = some (relocateEntry (p ++ [c]) (p.dropLast ++ [c]) e) := by
  rw [stepEntry, if_neg (by simp [hl])]

theorem relocateEntry_moved {src dst : Path} {e : Path × Node}
    (hl : leadsL src e.1 = true) :
    relocateEntry src dst e = (dst ++ e.1.drop src.length, e.2) := by
  rw [relocateEntry, if_pos hl]

theorem relocateEntry_same {src dst : Path} {e : Path × Node}
    (hl : leadsL src e.1 = false) : relocateEntry src dst e = e := by
  rw [relocateEntry, if_neg (by simp [hl])]

theorem mem_step_same {fs : Fs} {p : Path} {c : String} {e : Path × Node} (he : e ∈ fs)
    (h1 : leadsL (p.dropLast ++ [c]) e.1 = false) (h2 : leadsL (p ++ [c]) e.1 = false) :
    e ∈ fs.filterMap (stepEntry p c) :=
  List.mem_filterMap.2 ⟨e, he, by rw [stepEntry_some h1, relocateEntry_same h2]⟩

theorem mem_step_moved (fs : Fs) (p : Path) (c : String) (r : Path) {n : Node}
    (he : ((p ++ [c]) ++ r, n) ∈ fs)
    (h1 : leadsL (p.dropLast ++ [c]) ((p ++ [c]) ++ r) = false) :
    ((p.dropLast ++ [c]) ++ r, n) ∈ fs.filterMap (stepEntry p c) := by
  apply List.mem_filterMap.2
  refine ⟨((p ++ [c]) ++ r, n), he, ?_⟩
  rw [stepEntry_some h1, relocateEntry_moved (leadsL_append _ _)]
  rw [show ((p ++ [c]) ++ r : Path).drop (p ++ [c]).length = r from List.drop_left _ _]

theorem step_nodup (fs : Fs) (p : Path) (c : String)
    (hnodup : (fs.map Prod.fst).Nodup) :
    ((fs.filterMap (stepEntry p c)).map Prod.fst).Nodup := by
  have hkeys : (fs.filterMap (stepEntry p c)).map Prod.fst =
      (fs.map Prod.fst).filterMap (fun k =>
        if leadsL (p.dropLast ++ [c]) k = true then none
        else some (if leadsL (p ++ [c]) k = true
          then (p.dropLast ++ [c]) ++ k.drop (p ++ [c]).length else k)) := by
    rw [List.map_filterMap, List.filterMap_map]
    apply List.filterMap_congr
    intro e _
    rw [stepEntry, relocateEntry]
    by_cases hd : leadsL (p.dropLast ++ [c]) e.1 = true
    · rw [if_pos hd]
      simp [hd]
    · rw [if_neg hd]
      by_cases hsr : leadsL (p ++ [c]) e.1 = true
      · rw [if_pos hsr]
        simp [bool_false hd, hsr]
      · rw [if_neg hsr]
        simp [bool_false hd, bool_false hsr]
  rw [hkeys]
  apply nodup_filterMap_inj _ _ _ hnodup
  intro k1 _ k2 _ b h1 h2
  by_cases hd1 : leadsL (p.dropLast ++ [c]) k1 = true
  · rw [if_pos hd1] at h1; cases h1
  · rw [if_neg hd1] at h1
    by_cases hd2 : leadsL (p.dropLast ++ [c]) k2 = true
    · rw [if_pos hd2] at h2; cases h2
    · rw [if_neg hd2] at h2
      injection h1 with h1'
      injection h2 with h2'
      rw [← h2'] at h1'
      by_cases hs1 : leadsL (p ++ [c]) k1 = true
      · rw [if_pos hs1] at h1'
        by_cases hs2 : leadsL (p ++ [c]) k2 = true
        · rw [if_pos hs2] at h1'
          have hdrop := List.append_cancel_left h1'
          obtain ⟨r1, hr1⟩ := (leadsL_iff _ k1).1 hs1
          obtain ⟨r2, hr2⟩ := (leadsL_iff _ k2).1 hs2
          rw [hr1, List.drop_left, hr2, List.drop_left] at hdrop
          rw [hr1, hr2, hdrop]
        · rw [if_neg hs2] at h1'
          exfalso
          apply hd2
          rw [← h1']
          exact leadsL_append _ _
      · rw [if_neg hs1] at h1'
        by_cases hs2 : leadsL (p ++ [c]) k2 = true
        · rw [if_pos hs2] at h1'
          exfalso
          apply hd1
          rw [h1']
          exact leadsL_append _ _
        · rw [if_neg hs2] at h1'
          exact h1'

theorem step_nonempty (fs : Fs) (p : Path) (c : String)
    (hnonempty : ∀ e ∈ fs, e.1 ≠ []) :
    ∀ e2 ∈ fs.filterMap (stepEntry p c), e2.1 ≠ [] := by
  intro e2 he2
  obtain ⟨e, he, hstep⟩ := List.mem_filterMap.1 he2
  have h1 : leadsL (p.dropLast ++ [c]) e.1 = false := by
    cases hb : leadsL (p.dropLast ++ [c]) e.1
    · rfl
    · rw [stepEntry_none hb] at hstep; cases hstep
  rw [stepEntry_some h1] at hstep
  injection hstep with h2
  rw [← h2, relocateEntry]
  by_cases hsr : leadsL (p ++ [c]) e.1 = true
  · rw [if_pos hsr]
    simp
  · rw [if_neg hsr]
    exact hnonempty e he

theorem step_anc (fs : Fs) (par : Path) (w c : String) (hne : c ≠ w)
    (hanc : ∀ e ∈ fs, ∀ q : Path, q ≠ [] → leadsL q e.1 = true → q ≠ e.1 →
      ∃ m, (q, Node.dir m) ∈ fs)
    (hdirp : ∃ mp, (par ++ [w], Node.dir mp) ∈ fs) :
    ∀ e2 ∈ fs.filterMap (stepEntry (par ++ [w]) c), ∀ q : Path, q ≠ [] →
      leadsL q e2.1 = true → q ≠ e2.1 →
      ∃ m, (q, Node.dir m) ∈ fs.filterMap (stepEntry (par ++ [w]) c) := by
  have hdl : (par ++ [w] : Path).dropLast = par := dropLast_snoc par w
  have hdest_under : ∀ t : Path,
      leadsL ((par ++ [w] : Path).dropLast ++ [c]) ((par ++ [w]) ++ t) = false := by
    intro t
    rw [hdl]
    exact dest_not_leads_under par hne t
  intro e2 he2 q hq hlead hqe
  obtain ⟨e, he, hstep⟩ := List.mem_filterMap.1 he2
  have h1 : leadsL ((par ++ [w] : Path).dropLast ++ [c]) e.1 = false := by
    cases hb : leadsL ((par ++ [w] : Path).dropLast ++ [c]) e.1
    · rfl
    · rw [stepEntry_none hb] at hstep; cases hstep
  rw [stepEntry_some h1] at hstep
  injection hstep with h2
  by_cases hs : leadsL ((par ++ [w]) ++ [c]) e.1 = true
  · obtain ⟨r, hr⟩ := (leadsL_iff _ e.1).1 hs
    have he2eq : e2.1 = ((par ++ [w] : Path).dropLast ++ [c]) ++ r := by
      rw [← h2, relocateEntry_moved hs, hr]
      rw [show (((par ++ [w]) ++ [c]) ++ r : Path).drop ((par ++ [w]) ++ [c]).length = r from
        List.drop_left _ _]
    rw [he2eq] at hlead hqe
    by_cases hqdest : q = (par ++ [w] : Path).dropLast ++ [c]
    · subst hqdest
      have hrne : r ≠ [] := fun hnil => hqe (by rw [hnil, List.append_nil])
      have hsrcne : ((par ++ [w]) ++ [c] : Path) ≠ e.1 := by
        rw [hr]
        intro hcon
        have hlen := congrArg List.length hcon
        simp at hlen
        exact hrne hlen
      obtain ⟨m, hm⟩ := hanc e he ((par ++ [w]) ++ [c]) (by simp) hs hsrcne
      refine ⟨m, ?_⟩
      have hm' : (((par ++ [w]) ++ [c]) ++ ([] : Path), Node.dir m) ∈ fs := by
        rw [List.append_nil]; exact hm
      have hres := mem_step_moved fs (par ++ [w]) c [] hm'
        (by rw [List.append_nil]; exact hdest_under [c])
      rw [List.append_nil] at hres
      exact hres
    · rcases leadsL_append_cases hlead with hqd | ⟨r2, hq2, hr2⟩
      · have hqpar : leadsL q ((par ++ [w] : Path).dropLast) = true := leadsL_snoc hqd hqdest
        have hqp : leadsL q (par ++ [w]) = true := by
          rw [hdl] at hqpar
          exact leadsL_trans hqpar (leadsL_append par [w])
        have hqnep : q ≠ par ++ [w] := by
          intro hcon
          apply hqdest
          apply leadsL_eq_of_length hqd
          rw [hcon, hdl]
          simp
        obtain ⟨mp, hmp⟩ := hdirp
        obtain ⟨m, hm⟩ := hanc (par ++ [w], Node.dir mp) hmp q hq hqp hqnep
        refine ⟨m, mem_step_same hm ?_ ?_⟩
        · apply leadsL_false_of_length
          have hle := leadsL_length_le hqd
          rcases lt_or_eq_of_le hle with hlt | heq
          · exact hlt
          · exact absurd (leadsL_eq_of_length hqd heq) hqdest
        · apply leadsL_false_of_length
          have hle := leadsL_length_le hqd
          rw [hdl] at hle
          rw [List.length_append] at hle
          rw [List.length_append, List.length_append]
          simp at hle ⊢
          omega
      · have hq'lead : leadsL (((par ++ [w]) ++ [c]) ++ r2) e.1 = true := by
          rw [hr]
          exact leadsL_append_left _ hr2
        have hq'ne : ((par ++ [w]) ++ [c]) ++ r2 ≠ e.1 := by
          rw [hr]
          intro hcon
          have hcancel := List.append_cancel_left hcon
          apply hqe
          rw [hq2, hcancel]
        obtain ⟨m, hm⟩ := hanc e he (((par ++ [w]) ++ [c]) ++ r2) (by simp) hq'lead hq'ne
        refine ⟨m, ?_⟩
        have hmem := mem_step_moved fs (par ++ [w]) c r2 hm
          (by rw [List.append_assoc]; exact hdest_under ([c] ++ r2))
        rw [hq2]
        exact hmem
  · have hs' := bool_false hs
    have h2' : e = e2 := by rw [← h2, relocateEntry_same hs']
    rw [← h2'] at hlead hqe
    obtain ⟨m, hm⟩ := hanc e he q hq hlead hqe
    refine ⟨m, mem_step_same hm ?_ ?_⟩
    · cases hb : leadsL ((par ++ [w] : Path).dropLast ++ [c]) q
      · rfl
      · exfalso
        have htr := leadsL_trans hb hlead
        rw [htr] at h1
        cases h1
    · cases hb : leadsL ((par ++ [w]) ++ [c]) q
      · rfl
      · exact absurd (leadsL_trans hb hlead) hs

theorem unrollGo_eq (par : Path) (w : String) :
    ∀ cs : List String, ∀ fs : Fs,
      (fs.map Prod.fst).Nodup →
      (∀ e ∈ fs, ∀ q : Path, q ≠ [] → leadsL q e.1 = true → q ≠ e.1 →
        ∃ m, (q, Node.dir m) ∈ fs) →
      (∃ mp, (par ++ [w], Node.dir mp) ∈ fs) →
      (∀ c ∈ cs, ∃ n, ((par ++ [w]) ++ [c], n) ∈ fs) →
      cs.Nodup →
      (∀ c ∈ cs, c ≠ w) →
      unrollGo (par ++ [w]) cs fs =
        (fs.filterMap (chainEntry (par ++ [w]) cs), .ok ()) := by
  have hdl : (par ++ [w] : Path).dropLast = par := dropLast_snoc par w
  intro cs
  induction cs with
  | nil =>
    intro fs hnodup hanc hdir hchild hcsnd hcw
    obtain ⟨mp, hmp⟩ := hdir
    have hnd : Fs.node? fs (par ++ [w]) = some (Node.dir mp) := node?_of_nodup_mem hnodup hmp
    rw [show unrollGo (par ++ [w]) [] fs = Fs.removeDirAll fs (par ++ [w]) from rfl]
    rw [Fs.removeDirAll, if_pos (by rw [Fs.isDir, hnd])]
    rw [removeSubtree, filter_eq_filterMap]
    have hcong : fs.filterMap
        (fun e => if (!(leadsL (par ++ [w]) e.1)) = true then some e else none)
        = fs.filterMap (chainEntry (par ++ [w]) []) := by
      apply List.filterMap_congr
      intro e _
      rw [show chainEntry (par ++ [w]) [] e =
        (if leadsL (par ++ [w]) e.1 = true then none else some e) from rfl]
      cases hl : leadsL (par ++ [w]) e.1 <;> simp [hl]
    rw [hcong]
  | cons c cs' ih =>
    intro fs hnodup hanc hdir hchild hcsnd hcw
    have hcne : c ≠ w := hcw c (List.mem_cons_self _ _)
    have hancdest : ∀ e ∈ fs, leadsL ((par ++ [w] : Path).dropLast ++ [c]) e.1 = true →
        e.1 ≠ (par ++ [w] : Path).dropLast ++ [c] →
        ∃ m, ((par ++ [w] : Path).dropLast ++ [c], Node.dir m) ∈ fs := by
      intro e he hl hne2
      exact hanc e he _ (by rw [hdl]; simp) hl (Ne.symm hne2)
    have hstep := unrollStepRemove_eq fs ((par ++ [w] : Path).dropLast ++ [c]) hnodup hancdest
    obtain ⟨n0, hn0⟩ := hchild c (List.mem_cons_self _ _)
    have hnodup1 : ((fs.filter
        (fun e => !(leadsL ((par ++ [w] : Path).dropLast ++ [c]) e.1))).map Prod.fst).Nodup :=
      List.Nodup.sublist (List.Sublist.map Prod.fst (List.filter_sublist fs)) hnodup
    have hsrc_nd : leadsL ((par ++ [w] : Path).dropLast ++ [c]) ((par ++ [w]) ++ [c]) = false := by
      rw [hdl]
      exact dest_not_leads_under par hcne [c]
    have hmem1 : ((par ++ [w]) ++ [c], n0) ∈
        fs.filter (fun e => !(leadsL ((par ++ [w] : Path).dropLast ++ [c]) e.1)) :=
      List.mem_filter.2 ⟨hn0, by rw [hsrc_nd]; rfl⟩
    have hsrc1 := node?_of_nodup_mem hnodup1 hmem1
    have hdst1 : Fs.node? (fs.filter
        (fun e => !(leadsL ((par ++ [w] : Path).dropLast ++ [c]) e.1)))
        ((par ++ [w] : Path).dropLast ++ [c]) = none := by
      apply node?_eq_none_iff.2
      intro n hmem
      have hcond := (List.mem_filter.1 hmem).2
      rw [leadsL_refl] at hcond
      cases hcond
    have hren := rename_eq_map hsrc1 hdst1
    have hcons := unrollGo_cons_eq cs' hstep hren
    rw [hcons, step_state_eq]
    have hnotin := (List.nodup_cons.1 hcsnd).1
    have hdir2 : ∃ mp, (par ++ [w], Node.dir mp) ∈
        fs.filterMap (stepEntry (par ++ [w]) c) := by
      obtain ⟨mp, hmp⟩ := hdir
      refine ⟨mp, mem_step_same hmp ?_ ?_⟩
      · rw [hdl]
        exact dest_not_leads_p hcne
      · exact leadsL_false_of_length (by simp)
    have hchild2 : ∀ c' ∈ cs', ∃ n, ((par ++ [w]) ++ [c'], n) ∈
        fs.filterMap (stepEntry (par ++ [w]) c) := by
      intro c' hc'
      obtain ⟨n, hn⟩ := hchild c' (List.mem_cons_of_mem _ hc')
      refine ⟨n, mem_step_same hn ?_ ?_⟩
      · rw [hdl]
        exact dest_not_leads_under par hcne [c']
      · exact src_not_leads_sibling (fun heq => hnotin (heq ▸ hc'))
    have ihap := ih (fs.filterMap (stepEntry (par ++ [w]) c))
      (step_nodup fs (par ++ [w]) c hnodup)
      (step_anc fs par w c hcne hanc hdir)
      hdir2 hchild2 (List.nodup_cons.1 hcsnd).2
      (fun c' hc' => hcw c' (List.mem_cons_of_mem _ hc'))
    rw [ihap, List.filterMap_filterMap]
    rfl

theorem filterMap_congr_mem {α β : Type} (f g : α → Option β) :
    ∀ l : List α, (∀ x ∈ l, f x = g x) → l.filterMap f = l.filterMap g := by
  intro l
  induction l with
  | nil => intro _; rfl
  | cons a t ih =>
    intro h
    rw [List.filterMap_cons, List.filterMap_cons, h a (List.mem_cons_self _ _),
      ih fun x hx => h x (List.mem_cons_of_mem _ hx)]

theorem chain_passthrough (par : Path) (w : String) (e : Path × Node)
    (hnp : leadsL (par ++ [w]) e.1 = false) :
    ∀ cs : List String,
      (∀ c ∈ cs, leadsL ((par ++ [w] : Path).dropLast ++ [c]) e.1 = false) →
      chainEntry (par ++ [w]) cs e = some e := by
  intro cs
  induction cs with
  | nil =>
    intro _
    rw [show chainEntry (par ++ [w]) [] e =
      (if leadsL (par ++ [w]) e.1 = true then none else some e) from rfl]
    rw [if_neg (by simp [hnp])]
  | cons c cs' ih =>
    intro hnd
    rw [show chainEntry (par ++ [w]) (c :: cs') e =
      (stepEntry (par ++ [w]) c e).bind (chainEntry (par ++ [w]) cs') from rfl]
    have hsrc : leadsL ((par ++ [w]) ++ [c]) e.1 = false := by
      cases hb : leadsL ((par ++ [w]) ++ [c]) e.1
      · rfl
      · exfalso
        have htr := leadsL_trans (leadsL_append (par ++ [w]) [c]) hb
        rw [htr] at hnp
        cases hnp
    rw [stepEntry_some (hnd c (List.mem_cons_self _ _)), relocateEntry_same hsrc,
      Option.some_bind]
    exact ih fun c' hc' => hnd c' (List.mem_cons_of_mem _ hc')

theorem chain_eq_spec (par : Path) (w : String) (e : Path × Node) :
    ∀ cs : List String,
      (∀ c ∈ cs, c ≠ w) →
      cs.Nodup →
      (leadsL (par ++ [w]) e.1 = true → e.1 ≠ par ++ [w] →
        ∃ c ∈ cs, leadsL ((par ++ [w]) ++ [c]) e.1 = true) →
      chainEntry (par ++ [w]) cs e = unrollSpecEntry (par ++ [w]) cs e := by
  have hdl : (par ++ [w] : Path).dropLast = par := dropLast_snoc par w
  intro cs
  induction cs with
  | nil =>
    intro _ _ hcomp
    rw [show chainEntry (par ++ [w]) [] e =
      (if leadsL (par ++ [w]) e.1 = true then none else some e) from rfl]
    rw [unrollSpecEntry]
    by_cases heq : e.1 = par ++ [w]
    · rw [if_pos heq, heq, leadsL_refl]
      rfl
    · rw [if_neg heq]
      by_cases hl : leadsL (par ++ [w]) e.1 = true
      · obtain ⟨c, hc, _⟩ := hcomp hl heq
        cases hc
      · rw [if_neg hl, if_neg hl]
        rfl
  | cons c cs' ih =>
    intro hcw hcsnd hcomp
    have hcne : c ≠ w := hcw c (List.mem_cons_self _ _)
    have hnotin := (List.nodup_cons.1 hcsnd).1
    rw [show chainEntry (par ++ [w]) (c :: cs') e =
      (stepEntry (par ++ [w]) c e).bind (chainEntry (par ++ [w]) cs') from rfl]
    by_cases hd : leadsL ((par ++ [w] : Path).dropLast ++ [c]) e.1 = true
    · rw [stepEntry_none hd, Option.none_bind, unrollSpecEntry]
      have hne1 : e.1 ≠ par ++ [w] := by
        intro hcon
        rw [hcon, hdl, dest_not_leads_p hcne] at hd
        cases hd
      have hnl : leadsL (par ++ [w]) e.1 = false := by
        cases hb : leadsL (par ++ [w]) e.1
        · rfl
        · exfalso
          obtain ⟨t, ht⟩ := (leadsL_iff _ e.1).1 hb
          rw [ht, hdl, dest_not_leads_under par hcne t] at hd
          cases hd
      rw [if_neg hne1, if_neg (by simp [hnl]), if_pos (by rw [List.any_cons, hd]; rfl)]
    · have hd' := bool_false hd
      rw [stepEntry_some hd']
      by_cases hs : leadsL ((par ++ [w]) ++ [c]) e.1 = true
      · rw [relocateEntry_moved hs, Option.some_bind]
        obtain ⟨r, hr⟩ := (leadsL_iff _ e.1).1 hs
        have hdrop : (((par ++ [w]) ++ [c]) ++ r : Path).drop (par ++ [w] : Path).length
            = [c] ++ r := by
          rw [List.append_assoc]
          exact List.drop_left _ _
        have hdropsrc : (((par ++ [w]) ++ [c]) ++ r : Path).drop
            ((par ++ [w]) ++ [c] : Path).length = r := List.drop_left _ _
        have hpass : chainEntry (par ++ [w]) cs' ((par ++ [c]) ++ r, e.2)
            = some ((par ++ [c]) ++ r, e.2) := by
          apply chain_passthrough
          · exact dest_not_leads_under par (Ne.symm hcne) r
          · intro c' hc'
            rw [hdl]
            exact dest_not_leads_under par (fun heq' => hnotin (by rw [← heq']; exact hc')) r
        have hne1 : e.1 ≠ par ++ [w] := by
          intro hcon
          have hle := leadsL_length_le hs
          rw [hcon] at hle
          simp at hle
        have hlp : leadsL (par ++ [w]) e.1 = true := leadsL_trans (leadsL_append _ _) hs
        rw [hdl, hr, hdropsrc, hpass, unrollSpecEntry]
        rw [if_neg hne1, if_pos hlp]
        rw [hdl, hr, hdrop, ← List.append_assoc]
      · have hs' := bool_false hs
        rw [relocateEntry_same hs', Option.some_bind]
        have hcomp' : leadsL (par ++ [w]) e.1 = true → e.1 ≠ par ++ [w] →
            ∃ c' ∈ cs', leadsL ((par ++ [w]) ++ [c']) e.1 = true := by
          intro hl hne1
          obtain ⟨c', hc', hlc⟩ := hcomp hl hne1
          rcases List.mem_cons.1 hc' with rfl | hmem
          · rw [hs'] at hlc
            cases hlc
          · exact ⟨c', hmem, hlc⟩
        rw [ih (fun c' h => hcw c' (List.mem_cons_of_mem _ h))
          (List.nodup_cons.1 hcsnd).2 hcomp']
        rw [unrollSpecEntry, unrollSpecEntry]
        by_cases heq : e.1 = par ++ [w]
        · rw [if_pos heq, if_pos heq]
        · rw [if_neg heq, if_neg heq]
          by_cases hl : leadsL (par ++ [w]) e.1 = true
          · rw [if_pos hl, if_pos hl]
          · rw [if_neg hl, if_neg hl]
            rw [List.any_cons, hd', Bool.false_or]

/-- Claim C6 (amended). On a well-formed filesystem, `unroll_folder` on a
path that does not exist or is not a directory is a no-op success. When the
path is a directory (with a parent) and — the amendment — no direct child
bears the wrapper directory's own name, the run succeeds and the final
filesystem is exactly the spec's description: the wrapper and everything
below it is gone, each child subtree reappears one level up replacing any
previous occupant of its destination, and everything else is untouched. -/
theorem c6_amended (fs : Fs) (p : Path) (hwf : FsWf fs) :
    (Fs.isDir fs p = false → unrollFolder fs p = (fs, .ok ())) ∧
    (Fs.isDir fs p = true → p ≠ [] →
      (∀ c ∈ childNames fs p, some c ≠ p.getLast?) →
      unrollFolder fs p =
        (fs.filterMap (unrollSpecEntry p (childNames fs p)), .ok ())) := by
  constructor
  · intro hnd
    rw [unrollFolder, if_neg (by simp [hnd])]
  · intro hd hp hlast
    rw [unrollFolder, if_pos hd, if_neg (by simp [hp])]
    obtain ⟨par, w, hpw⟩ : ∃ par w, p = par ++ [w] :=
      ⟨p.dropLast, p.getLast hp, (List.dropLast_append_getLast hp).symm⟩
    subst hpw
    have hgl : (par ++ [w] : Path).getLast? = some w := List.getLast?_concat _
    have hcw : ∀ c ∈ childNames fs (par ++ [w]), c ≠ w := by
      intro c hc heq
      exact hlast c hc (by rw [hgl, heq])
    have hdirmem : ∃ mp, (par ++ [w], Node.dir mp) ∈ fs := by
      rcases hnode : Fs.node? fs (par ++ [w]) with _ | n
      · simp [Fs.isDir, hnode] at hd
      · cases n with
        | file m => simp [Fs.isDir, hnode] at hd
        | dir m => exact ⟨m, node?_mem hnode⟩
    have hch : ∀ c ∈ childNames fs (par ++ [w]), ∃ n, ((par ++ [w]) ++ [c], n) ∈ fs :=
      fun c hc => mem_of_childNames hc
    have hcnd : (childNames fs (par ++ [w])).Nodup := childNames_nodup hwf.1
    have hspec : ∀ e ∈ fs, chainEntry (par ++ [w]) (childNames fs (par ++ [w])) e
        = unrollSpecEntry (par ++ [w]) (childNames fs (par ++ [w])) e := by
      intro e he
      apply chain_eq_spec par w e (childNames fs (par ++ [w])) hcw hcnd
      intro hl hne1
      obtain ⟨r, hr⟩ := (leadsL_iff (par ++ [w]) e.1).1 hl
      cases r with
      | nil => exact absurd (by rw [hr, List.append_nil]) hne1
      | cons c r' =>
        have hql : leadsL ((par ++ [w]) ++ [c]) e.1 = true := by
          apply (leadsL_iff _ _).2
          exact ⟨r', by rw [hr]; simp [List.append_assoc]⟩
        refine ⟨c, ?_, hql⟩
        by_cases hqe : (par ++ [w]) ++ [c] = e.1
        · obtain ⟨p1, n1⟩ := e
          have hmem : ((par ++ [w]) ++ [c], n1) ∈ fs := by
            rw [hqe]
            exact he
          exact childNames_of_mem hmem
        · obtain ⟨m, hm⟩ := wf_anc hwf e he ((par ++ [w]) ++ [c]) (by simp) hql hqe
          exact childNames_of_mem hm
    have hfm := filterMap_congr_mem (chainEntry (par ++ [w]) (childNames fs (par ++ [w])))
      (unrollSpecEntry (par ++ [w]) (childNames fs (par ++ [w]))) fs hspec
    rw [unrollGo_eq par w (childNames fs (par ++ [w])) fs hwf.1 (wf_anc hwf)
      hdirmem hch hcnd hcw, hfm]

theorem c6_amended_witness :
    unrollFolder unrollDemoFs ["par", "w"] =
      (unrollDemoFs.filterMap
        (unrollSpecEntry ["par", "w"] (childNames unrollDemoFs ["par", "w"])), .ok ())
    ∧ unrollFolder [] ["nope"] = ([], .ok ()) :=
  ⟨(c6_amended unrollDemoFs ["par", "w"] (by unfold FsWf; decide)).2
      (by decide) (by decide) (by decide),
    (c6_amended [] ["nope"] (by unfold FsWf; decide)).1 (by decide)⟩

end Wasupdate
